import Mathlib

/-
Verification of the apywire object-graph wiring container.

This file is a shallow embedding, in Lean 4, of the parts of the apywire
source that the specification talks about:

  * `src/apywire/wiring.py`    — the `Wiring` container: spec-entry parsing
    (`_parse_spec_entry`), placeholder resolution (`_resolve`), the
    synchronous access path (`_access_impl`) and its exception discipline.
  * `src/apywire/runtime.py`   — the `WiringRuntime` container: the lazy
    memoized build (`Accessor.__call__`, `_instantiate_attr`,
    `_instantiate_impl`), runtime `Ref` resolution (`_resolve_runtime`),
    argument normalization (`_separate_args_kwargs`), string-constant
    interpolation (`_format_string_constant`), and the skeleton
    (cycle-recovery) protocol (`_skeletonize_type`, `_finalize_skeleton`,
    `_cleanup_skeleton`).
  * `src/apywire/exceptions.py` — the error taxonomy and
    `CircularWiringError.from_unprocessed`.
  * `src/apywire/compiler.py`  — the ahead-of-time compiler's module shape
    (imports, accessor surface, the `compiled` instance).

Python dictionaries are embedded as association lists, object identity as
numeric object ids allocated by a counter, exceptions as an explicit
`Except` result, and the (single-threaded, non-thread-safe) execution of
the runtime as a fuel-indexed interpreter.  Python string operations are
embedded as functions over the string's character list so that every
definition evaluates inside the kernel.
-/

namespace Apywire

/-- Left brace character (written via its code point to keep string
lexing unambiguous). -/
def lbrace : Char := Char.ofNat 123

/-- Right brace character. -/
def rbrace : Char := Char.ofNat 125

/-- Python `s.startswith("{")`: the first character is a left brace. -/
def startsWithLB (s : String) : Bool :=
  match s.data with
  | [] => false
  | c :: _ => c == lbrace

/-- Python `s.endswith("}")`: the last character is a right brace. -/
def endsWithRB (s : String) : Bool :=
  match s.data.getLast? with
  | none => false
  | some c => c == rbrace

/-- Python `s[1:-1]`: the string minus its first and last characters. -/
def stripBraces (s : String) : String :=
  ⟨(s.data.drop 1).dropLast⟩

/-- Python `ch in s` on a single character. -/
def containsChar (s : String) (c : Char) : Bool :=
  s.data.contains c

/-- Primitive spec values (`_ConstantValue` in `wiring.py`): strings,
integers, booleans and `None`.  Bytes, floats, complex and `Ellipsis`
are omitted; no claim distinguishes them from the other primitives. -/
inductive Prim
  | pstr (s : String)
  | pint (n : Int)
  | pbool (b : Bool)
  | pnone

/-- Keys of a spec-entry data mapping: Python `int` or `str` keys
(`data: dict[str | int, object]` in `runtime.py`). -/
inductive DKey
  | ik (n : Int)
  | sk (s : String)

/-- Input-side spec values (`_SpecValue`): primitives and arbitrarily
nested lists, tuples and keyed mappings. -/
inductive SV
  | prim (p : Prim)
  | list (xs : List SV)
  | tup (xs : List SV)
  | dict (items : List (DKey × SV))

/-- Post-parse resolved values (`_ResolvedValue`): like `SV` but with
`_WiredRef` markers for placeholder strings. -/
inductive RV
  | prim (p : Prim)
  | ref (name : String)
  | list (xs : List RV)
  | tup (xs : List RV)
  | dict (items : List (DKey × RV))

/-- Runtime values (`_RuntimeValue`): primitives, constructed host
objects (identified by a numeric object id standing for Python object
identity), and nested containers. -/
inductive RTV
  | prim (p : Prim)
  | obj (id : Nat)
  | list (xs : List RTV)
  | tup (xs : List RTV)
  | dict (items : List (DKey × RTV))

/-- Exceptions raised by the wiring engine.  Each constructor embeds one
Python exception class from `exceptions.py` (or a host-level exception):

  * `up`        — `UnknownPlaceholderError` (referenced name, optional
                  context name from the error message);
  * `circular`  — `CircularWiringError`;
  * `pc`        — `PartialConstructionError`;
  * `wfail`     — `WiringError("failed to instantiate '<name>'")`, with
                  the original exception preserved as `__cause__`;
  * `wmsg`      — other `WiringError`s (e.g. a non-string template);
  * `host`      — an arbitrary exception raised by a host constructor;
  * `attrError` — `AttributeError` for an unknown accessor name;
  * `blocked`   — an `Event.wait()` that no other thread can signal: in
                  the single-threaded model this call never returns, so
                  the interpreter reports it as a distinguished outcome;
  * `fuelOut`   — interpreter fuel exhaustion (model artifact only);
  * `bug`       — an unreachable junk branch of the model. -/
inductive Exc
  | up (name : String) (ctx : Option String)
  | circular (msg : String)
  | pc (msg : String)
  | wfail (name : String) (cause : Option Exc)
  | wmsg (msg : String)
  | host (name : String)
  | attrError (name : String)
  | blocked
  | fuelOut
  | bug

/-- Python `isinstance(e, UnknownPlaceholderError)`. -/
def Exc.isUP : Exc → Bool
  | .up _ _ => true
  | _ => false

/-- Python `isinstance(e, CircularWiringError)`. -/
def Exc.isCW : Exc → Bool
  | .circular _ => true
  | _ => false

/- ------------------------------------------------------------------
Spec-entry parsing and placeholder resolution (`wiring.py`).
------------------------------------------------------------------- -/

/-- Python `str.split(sep)` with an explicit one-character separator
(empty pieces are kept, as in Python). -/
def splitOnChar (sep : Char) : List Char → List (List Char)
  | [] => [[]]
  | c :: cs =>
    if c == sep then [] :: splitOnChar sep cs
    else
      match splitOnChar sep cs with
      | [] => [[c]]
      | g :: gs => (c :: g) :: gs

/-- Python `sep.join(pieces)` over character lists. -/
def joinWith (sep : Char) : List (List Char) → List Char
  | [] => []
  | [g] => g
  | g :: gs => g ++ sep :: joinWith sep gs

/-- Embedding of `Wiring._parse_spec_entry` (wiring.py).  A key without
a space is a constant (`none`).  Otherwise the key is split at its last
space into `type_str` and `name` (Python `key.rsplit(" ", 1)`);
`type_str` is split at dots into a module path and a class name; an
empty module path is a `ValueError`.  Returns
`(module_name, class_name, name)`. -/
def parse_spec_entry (key : String) : Except String (Option (String × String × String)) :=
  let ws := splitOnChar ' ' key.data
  match ws with
  | [] => .ok none
  | [_] => .ok none
  | _ =>
    let type_str := joinWith ' ' ws.dropLast
    let name : List Char := ws.getLast!
    let parts := splitOnChar '.' type_str
    let module_name := joinWith '.' parts.dropLast
    let class_name : List Char := parts.getLast!
    if module_name.isEmpty then
      .error ("invalid spec key '" ++ key ++ "': missing module qualification")
    else
      .ok (some (⟨module_name⟩, ⟨class_name⟩, ⟨name⟩))

mutual

/-- Embedding of `Wiring._resolve` (wiring.py lines 190-207).  A string
that starts with a left brace and ends with a right brace becomes a
`_WiredRef` carrying the string minus its first and last characters;
every other string is returned as-is; containers recurse. -/
def resolveSpec : SV → RV
  | .prim (.pstr s) =>
      if startsWithLB s ∧ endsWithRB s then .ref (stripBraces s)
      else .prim (.pstr s)
  | .prim p => .prim p
  | .dict items => .dict (resolveSpecD items)
  | .list xs => .list (resolveSpecL xs)
  | .tup xs => .tup (resolveSpecL xs)

/-- List part of `Wiring._resolve`. -/
def resolveSpecL : List SV → List RV
  | [] => []
  | x :: xs => resolveSpec x :: resolveSpecL xs

/-- Mapping part of `Wiring._resolve`. -/
def resolveSpecD : List (DKey × SV) → List (DKey × RV)
  | [] => []
  | (k, v) :: items => (k, resolveSpec v) :: resolveSpecD items

end

/- ------------------------------------------------------------------
Argument normalization (`runtime.py`).
------------------------------------------------------------------- -/

/-- Embedding of `WiringRuntime._separate_args_kwargs` (runtime.py lines
223-247): one pass over the items collects `(int key, value)` pairs in
iteration order and string-keyed items in iteration order; the integer
pairs are then sorted ascending by key (Python `list.sort`, stable) and
their values taken. -/
def separate_args_kwargs (data : List (DKey × RTV)) : List RTV × List (String × RTV) :=
  let args_list := data.filterMap (fun kv =>
    match kv.1 with
    | .ik i => some (i, kv.2)
    | .sk _ => none)
  let kwargs_dict := data.filterMap (fun kv =>
    match kv.1 with
    | .sk s => some (s, kv.2)
    | .ik _ => none)
  let sorted := args_list.mergeSort (fun a b => decide (a.1 ≤ b.1))
  (sorted.map Prod.snd, kwargs_dict)

/-- Embedding of the argument-shape dispatch in
`WiringRuntime._instantiate_impl` (runtime.py lines 345-354): a mapping
is partitioned by `_separate_args_kwargs`, a list is all-positional, and
anything else (scalars and tuples) is a single positional argument. -/
def normalizeArgs : RTV → List RTV × List (String × RTV)
  | .dict items => separate_args_kwargs items
  | .list xs => (xs, [])
  | v => ([v], [])

/- ------------------------------------------------------------------
Exception discipline of the synchronous access path (`wiring.py`).
------------------------------------------------------------------- -/

/-- Embedding of the `try/except` ladder of `Wiring._access_impl`
(wiring.py lines 736-744): `UnknownPlaceholderError` and
`CircularWiringError` are re-raised unchanged; both the `WiringError`
clause and the generic `Exception` clause wrap the exception in
`WiringError("failed to instantiate '<name>'")` with the original
exception preserved as the cause. -/
def access_impl_catch (name : String) (r : Except Exc RTV) : Except Exc RTV :=
  match r with
  | .ok v => .ok v
  | .error e =>
      if e.isUP ∨ e.isCW then .error e
      else .error (.wfail name (some e))

end Apywire

namespace Apywire

/- ------------------------------------------------------------------
Claim C2: classification of placeholder strings by the parser.
------------------------------------------------------------------- -/

/-- Claim C2, counterexample.  The claim states that a string is
classified as a `Ref` exactly when the whole string is one placeholder
whose name contains no braces, and that a `Ref` name never contains a
brace.  The source (`Wiring._resolve`) only tests the first and last
characters: the string `"{a}{b}"` (two embedded placeholders) is
classified as a `Ref` whose stored name `"a}{b"` contains braces. -/
theorem c2_counterexample :
    resolveSpec (.prim (.pstr "\x7ba\x7d\x7bb\x7d")) = .ref "a\x7d\x7bb"
    ∧ containsChar "a\x7d\x7bb" rbrace = true
    ∧ containsChar "a\x7d\x7bb" lbrace = true := by
  refine ⟨?_, rfl, rfl⟩
  rfl

/-- Claim C2, amended.  `Wiring._resolve` classifies a string value as a
`Ref` exactly when the string starts with a left brace and ends with a
right brace; the stored name is the string minus its first and last
characters (and may therefore contain braces); all other strings stay
plain strings. -/
theorem c2_ref_classification (s : String) :
    ((∃ r, resolveSpec (.prim (.pstr s)) = .ref r)
      ↔ (startsWithLB s ∧ endsWithRB s))
    ∧ (∀ r, resolveSpec (.prim (.pstr s)) = .ref r → r = stripBraces s)
    ∧ (¬(startsWithLB s ∧ endsWithRB s) →
        resolveSpec (.prim (.pstr s)) = .prim (.pstr s)) := by
  refine ⟨⟨?_, ?_⟩, ?_, ?_⟩
  · rintro ⟨r, hr⟩
    by_contra hcond
    rw [resolveSpec, if_neg hcond] at hr
    exact RV.noConfusion hr
  · intro hcond
    exact ⟨stripBraces s, by rw [resolveSpec, if_pos hcond]⟩
  · intro r hr
    by_cases hcond : startsWithLB s ∧ endsWithRB s
    · rw [resolveSpec, if_pos hcond] at hr
      exact (RV.ref.inj hr).symm
    · rw [resolveSpec, if_neg hcond] at hr
      exact absurd hr (fun h => RV.noConfusion h)
  · intro hcond
    rw [resolveSpec, if_neg hcond]

/-- Claim C2 amended, witness: instantiated at `"{host}"` (a single
whole-string placeholder, classified as a `Ref` named `host`) and at
`"x{a}"` (an embedded placeholder with other characters, kept as a
plain string). -/
theorem c2_ref_classification_witness :
    resolveSpec (.prim (.pstr "\x7bhost\x7d")) = .ref "host"
    ∧ resolveSpec (.prim (.pstr "x\x7ba\x7d")) = .prim (.pstr "x\x7ba\x7d") := by
  constructor
  · obtain ⟨r, hr⟩ := (c2_ref_classification "\x7bhost\x7d").1.2 ⟨rfl, rfl⟩
    have hname := (c2_ref_classification "\x7bhost\x7d").2.1 r hr
    rw [hr, hname]
    rfl
  · exact (c2_ref_classification "x\x7ba\x7d").2.2 (by intro h; exact absurd h.1 (by decide))

/- ------------------------------------------------------------------
Claim C3: argument normalization.
------------------------------------------------------------------- -/

/-- Integer-keyed items of a data mapping, in iteration order. -/
def intItems (items : List (DKey × RTV)) : List (Int × RTV) :=
  items.filterMap (fun kv =>
    match kv.1 with
    | .ik i => some (i, kv.2)
    | .sk _ => none)

/-- String-keyed items of a data mapping, in iteration order. -/
def strItems (items : List (DKey × RTV)) : List (String × RTV) :=
  items.filterMap (fun kv =>
    match kv.1 with
    | .sk s => some (s, kv.2)
    | .ik _ => none)

/-- Claim C3.  Argument normalization, as performed per invocation on
the resolved data (the interpreter below applies `normalizeArgs` to the
output of `_resolve_runtime`): for a mapping, the positional arguments
are the values of the integer-keyed items rearranged into ascending key
order (a permutation of the integer-keyed items, sorted by key) and the
keyword arguments are exactly the string-keyed items; a list is
all-positional in order; a scalar is a single positional argument. -/
theorem c3_arg_normalization :
    (∀ items : List (DKey × RTV),
      ∃ ps : List (Int × RTV),
        ps.Perm (intItems items)
        ∧ List.Pairwise (fun a b : Int × RTV => a.1 ≤ b.1) ps
        ∧ normalizeArgs (.dict items) = (ps.map Prod.snd, strItems items))
    ∧ (∀ xs : List RTV, normalizeArgs (.list xs) = (xs, []))
    ∧ (∀ p : Prim, normalizeArgs (.prim p) = ([.prim p], [])) := by
  refine ⟨?_, fun _ => rfl, fun _ => rfl⟩
  intro items
  refine ⟨(intItems items).mergeSort (fun a b => decide (a.1 ≤ b.1)), ?_, ?_, ?_⟩
  · exact List.mergeSort_perm _ _
  · have h := @List.sorted_mergeSort (Int × RTV)
      (fun a b => decide (a.1 ≤ b.1))
      (fun a b c hab hbc => by
        simp only [decide_eq_true_eq] at *
        omega)
      (fun a b => by
        simp only [Bool.or_eq_true, decide_eq_true_eq]
        omega)
      (intItems items)
    exact h.imp (by simp)
  · rfl

/- ------------------------------------------------------------------
Claim C5: exception wrapping of the access path.
------------------------------------------------------------------- -/

/-- Claim C5.  For every build of a name `n` through the synchronous
access path, an `UnknownPlaceholderError` or `CircularWiringError`
raised by the build propagates to the caller unchanged, while every
other exception is surfaced as a `WiringError` that names `n` and
preserves the original exception as its cause; successful results pass
through untouched. -/
theorem c5_exception_wrapping (n : String) (e : Exc) (v : RTV) :
    ((e.isUP ∨ e.isCW) → access_impl_catch n (.error e) = .error e)
    ∧ (¬(e.isUP ∨ e.isCW) →
        access_impl_catch n (.error e) = .error (.wfail n (some e)))
    ∧ access_impl_catch n (.ok v) = .ok v := by
  refine ⟨?_, ?_, rfl⟩
  · intro h
    simp only [access_impl_catch, if_pos h]
  · intro h
    simp only [access_impl_catch, if_neg h]

/-- Claim C5, witness: a host exception raised while building `"d"` is
wrapped with the name and the cause; a circular-wiring error passes
through unchanged. -/
theorem c5_exception_wrapping_witness :
    access_impl_catch "d" (.error (.host "boom"))
      = .error (.wfail "d" (some (.host "boom")))
    ∧ access_impl_catch "d" (.error (.circular "cyc")) = .error (.circular "cyc") := by
  constructor
  · exact (c5_exception_wrapping "d" (.host "boom") (.prim .pnone)).2.1 (by
      intro h
      rcases h with h | h <;> exact absurd h (by decide))
  · exact (c5_exception_wrapping "d" (.circular "cyc") (.prim .pnone)).1 (Or.inr rfl)

end Apywire

namespace Apywire

/- ------------------------------------------------------------------
Ahead-of-time compiler module shape (`compiler.py`).
------------------------------------------------------------------- -/

/-- Synthetic module name used for auto-promoted constants
(`SYNTHETIC_CONST` in `constants.py`). -/
def SYNTHETIC_CONST : String := "__sconst__"

/-- A parsed entry as stored in `WiringBase._parsed` and consumed by
`WiringCompiler.compile` and `WiringRuntime._instantiate_impl`:
`(module_name, class_name, factory_method, data)`. -/
structure PEntry where
  module_name : String
  class_name : String
  factory_method : Option String
  data : RV

/-- Test used by `runtime.py` and `compiler.py` for an auto-promoted
constant entry: `module_name == SYNTHETIC_CONST and class_name == "str"`. -/
def PEntry.isSynthetic (e : PEntry) : Bool :=
  e.module_name == SYNTHETIC_CONST && e.class_name == "str"

/-- Association-list lookup, embedding Python `d[k]` / `k in d` over an
insertion-ordered dictionary. -/
def alookup {β : Type} : List (String × β) → String → Option β
  | [], _ => none
  | (k, v) :: l, n => if k = n then some v else alookup l n

/-- Lexicographic order on character lists (Python `str` ordering by
code points), as a Boolean relation. -/
def charListLe : List Char → List Char → Bool
  | [], _ => true
  | _ :: _, [] => false
  | a :: as, b :: bs => if a == b then charListLe as bs else decide (a < b)

/-- Python `sorted(someSet)` for a set built from a list of strings:
duplicates removed, then sorted. -/
def sortedDedup (l : List String) : List String :=
  l.dedup.mergeSort (fun a b => charListLe a.data b.data)

/-- The container state the compiler works from: the parsed entries and
the constant cache (`_parsed` and `_values`). -/
structure CompilerSt where
  parsed : List (String × PEntry)
  values : List (String × RTV)

/-- Structural summary of the module emitted by
`WiringCompiler.compile` (compiler.py lines 576-733): the list of
emitted imports, the number of class definitions, the accessor method
names in class-body order, whether a thread-safe `__init__` was added,
and the name bound to the module-level instance. -/
structure CompiledModule where
  imports : List String
  classCount : Nat
  accessors : List String
  hasInitMethod : Bool
  instanceName : String

/-- Embedding of `WiringCompiler.compile`.  Imports: the module names
of parsed entries whose module is not `SYNTHETIC_CONST`, plus `asyncio`
when `aio`, plus the thread-safety modules when `thread_safe`, as a
sorted set.  Class body: one accessor per parsed entry that is not a
synthetic auto-promoted constant (those are skipped, compiler.py lines
667-670), followed by one constant accessor per `_values` entry whose
name is not in `_parsed`.  One class `Compiled` and one module-level
assignment `compiled = Compiled()` are emitted. -/
def compileModule (c : CompilerSt) (aio thread_safe : Bool) : CompiledModule :=
  let base := c.parsed.filterMap (fun ne =>
    if ne.2.module_name ≠ SYNTHETIC_CONST then some ne.2.module_name else none)
  let withAio := if aio then "asyncio" :: base else base
  let withTS := if thread_safe then
      "apywire.threads" :: "apywire.exceptions" :: withAio
    else withAio
  let accessors :=
    (c.parsed.filterMap (fun ne =>
      if ne.2.module_name = SYNTHETIC_CONST ∧ ne.2.class_name = "str" then none
      else some ne.1))
    ++ (c.values.filterMap (fun nv =>
      if (alookup c.parsed nv.1).isSome then none else some nv.1))
  { imports := sortedDedup withTS
    classCount := 1
    accessors := accessors
    hasInitMethod := thread_safe
    instanceName := "compiled" }

/-- Module names referenced by non-synthetic (wired) parsed entries. -/
def wiredModuleNames (parsed : List (String × PEntry)) : List String :=
  parsed.filterMap (fun ne =>
    if ne.2.module_name ≠ SYNTHETIC_CONST then some ne.2.module_name else none)

/-- Amended accessor surface, stated in the spec's vocabulary: one
accessor per parsed entry that is not a synthetic auto-promoted
constant, in spec order, followed by one accessor per cached constant
not shadowed by a parsed entry. -/
def accessorSurface (c : CompilerSt) : List String :=
  (c.parsed.filterMap (fun ne =>
    if ne.2.module_name = SYNTHETIC_CONST ∧ ne.2.class_name = "str" then none
    else some ne.1))
  ++ (c.values.filterMap (fun nv =>
    if (alookup c.parsed nv.1).isSome then none else some nv.1))

/-- Membership in `sortedDedup` is membership in the underlying list. -/
theorem mem_sortedDedup (x : String) (l : List String) :
    x ∈ sortedDedup l ↔ x ∈ l := by
  unfold sortedDedup
  rw [(List.mergeSort_perm l.dedup _).mem_iff, List.mem_dedup]

/- ------------------------------------------------------------------
Claim C6: shape of the compiled module.
------------------------------------------------------------------- -/

/-- Claim C6, counterexample.  The claim states the emitted container
has one accessor per spec entry.  For a parsed map holding one
synthetic auto-promoted constant entry (`label`, promoted because its
template references a wired entry), `WiringCompiler.compile` skips the
entry in the class body (compiler.py lines 667-670), so the emitted
class has no accessor at all for that spec entry. -/
theorem c6_counterexample :
    (compileModule
      ⟨[("label", ⟨SYNTHETIC_CONST, "str", none, .prim (.pstr "h is \x7bh\x7d")⟩)], []⟩
      false false).accessors = [] := by
  rfl

/-- Claim C6, amended.  For every parsed graph and every compile
variant, `compile` emits one source module defining exactly one
container class plus one module-level instance named `compiled`; the
class's public surface has one accessor per non-synthetic parsed entry
and one per cached constant not shadowed by a parsed entry (synthetic
auto-promoted constant entries get no accessor); and a module name is
imported exactly when some non-synthetic wired entry references it,
except for `asyncio` (added for the async variant) and the
thread-safety support modules (added for the thread-safe variant). -/
theorem c6_compiled_module_shape (c : CompilerSt) (aio ts : Bool) :
    (compileModule c aio ts).classCount = 1
    ∧ (compileModule c aio ts).instanceName = "compiled"
    ∧ (compileModule c aio ts).accessors = accessorSurface c
    ∧ (∀ m : String,
        m ∈ (compileModule c aio ts).imports ↔
          (m ∈ wiredModuleNames c.parsed
            ∨ (aio = true ∧ m = "asyncio")
            ∨ (ts = true ∧ (m = "apywire.threads" ∨ m = "apywire.exceptions")))) := by
  refine ⟨rfl, rfl, rfl, ?_⟩
  intro m
  show m ∈ sortedDedup _ ↔ _
  rw [mem_sortedDedup]
  cases aio <;> cases ts <;>
    simp [wiredModuleNames, List.mem_cons, or_comm, or_assoc, or_left_comm]

/-- Claim C6 amended, witness: a two-entry graph (one wired entry in
module `m`, one plain constant) compiled without variants imports
exactly `m` and exposes accessors `d` then `c`. -/
theorem c6_compiled_module_shape_witness :
    (compileModule
      ⟨[("d", ⟨"m", "Date", none, .dict []⟩)], [("c", .prim (.pint 8080))]⟩
      false false).accessors = ["d", "c"]
    ∧ "m" ∈ (compileModule
      ⟨[("d", ⟨"m", "Date", none, .dict []⟩)], [("c", .prim (.pint 8080))]⟩
      false false).imports := by
  constructor
  · have h := (c6_compiled_module_shape
      ⟨[("d", ⟨"m", "Date", none, .dict []⟩)], [("c", .prim (.pint 8080))]⟩
      false false).2.2.1
    rw [h]
    rfl
  · have h := ((c6_compiled_module_shape
      ⟨[("d", ⟨"m", "Date", none, .dict []⟩)], [("c", .prim (.pint 8080))]⟩
      false false).2.2.2 "m").2
    exact h (Or.inl (by simp [wiredModuleNames, SYNTHETIC_CONST]))

end Apywire

namespace Apywire

/- ------------------------------------------------------------------
Runtime state and the skeleton protocol (`runtime.py`).
------------------------------------------------------------------- -/

/-- Hidden attributes attached to a skeleton instance by
`_skeletonize_type` (runtime.py lines 109-135): `_apywire_partial`,
`_apywire_event` (modelled as "the event has been set") and
`_apywire_failure`. -/
structure ObjAttrs where
  pmark : Bool
  event : Bool
  failure : Option Exc

/-- Python `getattr(obj, "_apywire_partial", False)` etc. on an object
that never was a skeleton: all marker attributes are at their
defaults. -/
def defaultAttrs : ObjAttrs := ⟨false, false, none⟩

/-- Read the marker attributes of object `k` (with `getattr`
defaults). -/
def attrsGet (l : List (Nat × ObjAttrs)) (k : Nat) : ObjAttrs :=
  match l with
  | [] => defaultAttrs
  | (i, a) :: rest => if i = k then a else attrsGet rest k

/-- Overwrite the marker attributes of object `k` (`setattr`). -/
def attrsSet (l : List (Nat × ObjAttrs)) (k : Nat) (a : ObjAttrs) :
    List (Nat × ObjAttrs) :=
  (k, a) :: l

/-- Mutable state of a `WiringRuntime` container (non-thread-safe
path): the `_values` cache, the resolving stack, the marker attributes
of allocated objects, the object-id allocator, and a ghost count of
constructor invocations per name (instrumentation for the memoization
claims; it mirrors no Python state). -/
structure St where
  values : List (String × RTV)
  stack : List String
  attrs : List (Nat × ObjAttrs)
  nextId : Nat
  ctorCount : List (String × Nat)

/-- Python `self._values[name] = val`. -/
def vset (s : St) (n : String) (v : RTV) : St :=
  { s with values := (n, v) :: s.values }

/-- Remove a key from an association list (Python `del d[k]`). -/
def eraseKey {β : Type} : List (String × β) → String → List (String × β)
  | [], _ => []
  | p :: rest, n => if p.1 = n then eraseKey rest n else p :: eraseKey rest n

/-- Python `del self._values[name]`. -/
def vdel (s : St) (n : String) : St :=
  { s with values := eraseKey s.values n }

/-- Ghost bump of the constructor-invocation count for `n`. -/
def cbump (s : St) (n : String) : St :=
  { s with ctorCount := (n, (alookup s.ctorCount n).getD 0 + 1) :: s.ctorCount }

/-- Static environment of a container: the parsed entries (read-only
after construction), the `allow_partial` option, and the behavior of
the host constructors (the injected `TypeResolver` side): whether the
constructor/factory/initializer for an entry raises, and whether the
entry's factory returns the object produced by `cls.__new__` (the
skeleton, once `__new__` is redirected) rather than a fresh
instance. -/
structure Env where
  parsed : List (String × PEntry)
  allowP : Bool
  ctorFails : String → Bool
  factoryOk : String → Bool

/-- Python `getattr(cached, "_apywire_partial", False)` on a cached
runtime value. -/
def isPartialV (s : St) (v : RTV) : Bool :=
  match v with
  | .obj k => (attrsGet s.attrs k).pmark
  | _ => false

/-- Marker attributes of a cached runtime value (defaults for values
that are not host objects). -/
def attrsV (s : St) (v : RTV) : ObjAttrs :=
  match v with
  | .obj k => attrsGet s.attrs k
  | _ => defaultAttrs

/-- Embedding of the fast path of `Accessor.__call__` (runtime.py lines
535-551) applied to a cache hit `v`: a partial skeleton makes the
caller wait on its event (an unset event can never be signalled in the
single-threaded model, reported as `blocked`), then the recorded
failure is raised if present; otherwise `v` is returned. -/
def fastPathOn (s : St) (v : RTV) : Except Exc RTV × St :=
  if isPartialV s v then
    if (attrsV s v).event then
      match (attrsV s v).failure with
      | some e => (.error e, s)
      | none => (.ok v, s)
    else (.error .blocked, s)
  else (.ok v, s)

/-- The tail of `Accessor.__call__` as executed by a waiter that
already observed the partial flag and was woken by `event.set()`: it
raises the recorded failure if any, else returns the instance. -/
def waiterResume (s : St) (v : RTV) : Except Exc RTV :=
  match (attrsV s v).failure with
  | some e => .error e
  | none => .ok v

/-- Embedding of `WiringRuntime._finalize_skeleton` (runtime.py lines
137-164): record the failure when one is given, clear the partial flag,
and signal the event. -/
def finalize_skeleton (s : St) (k : Nat) (exc : Option Exc) : St :=
  let newFailure := match exc with
    | some e => some e
    | none => (attrsGet s.attrs k).failure
  { s with attrs := attrsSet s.attrs k ⟨false, true, newFailure⟩ }

/-- Embedding of `WiringRuntime._cleanup_skeleton` (runtime.py lines
166-178): finalize with the failure recorded, then remove the skeleton
from the values cache — but only when the cached object is
identity-equal to this very skeleton. -/
def cleanup_skeleton (s : St) (n : String) (k : Nat) (exc : Exc) : St :=
  match alookup (finalize_skeleton s k (some exc)).values n with
  | some (.obj k2) =>
      if k2 = k then vdel (finalize_skeleton s k (some exc)) n
      else finalize_skeleton s k (some exc)
  | _ => finalize_skeleton s k (some exc)

/-- Embedding of the skeleton-binding branch of
`WiringRuntime._instantiate_impl` (runtime.py lines 366-430), entered
when the values cache holds a partial skeleton `obj k` for `n`.  On the
factory path `cls.__new__` is redirected to return the skeleton and the
factory is invoked: if it raises, the error is converted to a
`PartialConstructionError` and the skeleton cleaned up; if it returns
an object that is not identity-equal to the skeleton, a
`PartialConstructionError` is raised after cleanup; otherwise the
skeleton is finalized and returned.  On the direct-init path
`cls.__init__` runs against the skeleton, with failure handled the same
way. -/
def bindSkeleton (env : Env) (s : St) (n : String) (pe : PEntry) (k : Nat) :
    Except Exc RTV × St :=
  if pe.factory_method.isSome then
    if env.ctorFails n then
      let exc := Exc.pc ("partial construction failed for '" ++ n ++ "'")
      (.error exc, cleanup_skeleton (cbump s n) n k exc)
    else if env.factoryOk n then
      (.ok (.obj k), finalize_skeleton (cbump s n) k none)
    else
      let exc := Exc.pc ("factory for '" ++ n
        ++ "' returned a different instance than the skeleton")
      (.error exc, cleanup_skeleton (cbump s n) n k exc)
  else
    if env.ctorFails n then
      let exc := Exc.pc ("failed to initialize skeleton for '" ++ n ++ "'")
      (.error exc, cleanup_skeleton (cbump s n) n k exc)
    else
      (.ok (.obj k), finalize_skeleton (cbump s n) k none)

/-- Embedding of the normal constructor call in
`WiringRuntime._instantiate_impl` (runtime.py lines 431-438): the host
constructor either raises (the exception is wrapped in
`WiringError("failed to instantiate '<name>'")` with the cause
preserved) or produces a fresh instance. -/
def normalCtor (env : Env) (s : St) (n : String) : Except Exc RTV × St :=
  if env.ctorFails n then
    (.error (.wfail n (some (.host n))), cbump s n)
  else
    (.ok (.obj s.nextId), cbump { s with nextId := s.nextId + 1 } n)

/-- Python `str()` of a primitive. -/
def strOfPrim : Prim → String
  | .pstr s => s
  | .pint n => toString n
  | .pbool b => if b then "True" else "False"
  | .pnone => "None"

/-- Python `str()` of a runtime value (the host-specific rendering of
objects and containers is abstracted). -/
def strOf : RTV → String
  | .prim p => strOfPrim p
  | .obj k => "<object " ++ toString k ++ ">"
  | .list _ => "<list>"
  | .tup _ => "<tuple>"
  | .dict _ => "<dict>"

/-- One piece of a template string after matching
`PLACEHOLDER_PATTERN = r"\{([^{}]+)\}"` against it: a literal character
or a placeholder name. -/
inductive Seg
  | lit (c : Char)
  | ph (name : String)

/-- Left-to-right scan of a template with `PLACEHOLDER_PATTERN`
(constants.py line 23), mirroring `re.sub`: at a left brace, a maximal
nonempty run of non-brace characters followed by a right brace is a
placeholder; any failed match leaves the character literal and the scan
continues after it. -/
def splitPH (input : List Char) : List Seg :=
  match input with
  | [] => []
  | c :: cs =>
    if c == lbrace then
      let ident := cs.takeWhile (fun ch => !(ch == lbrace || ch == rbrace))
      match h : cs.dropWhile (fun ch => !(ch == lbrace || ch == rbrace)) with
      | r :: rs =>
        if r == rbrace ∧ ident ≠ [] then .ph ⟨ident⟩ :: splitPH rs
        else .lit c :: splitPH cs
      | [] => .lit c :: splitPH cs
    else .lit c :: splitPH cs
  termination_by input.length
  decreasing_by
    all_goals simp only [List.length_cons]
    all_goals try omega
    have hle := List.IsSuffix.length_le
      (h ▸ List.dropWhile_suffix (fun ch => !(ch == lbrace || ch == rbrace)))
    simp only [List.length_cons] at hle
    omega

/-- Python `" -> ".join(stack)` used in circular-wiring messages. -/
def joinArrow (l : List String) : String :=
  String.intercalate " -> " l

/-- The call being executed by the interpreter.  Each constructor
embeds one Python function of the non-thread-safe runtime path:

  * `acc`      — `WiringRuntime.__getattr__` + `Accessor.__call__`;
  * `attr`     — `WiringRuntime._instantiate_attr` (non-thread-safe);
  * `impl`     — `WiringRuntime._instantiate_impl` (cycle check, stack
                 push, body, stack pop in `finally`);
  * `implBody` — the body of the `try` block of `_instantiate_impl`;
  * `res`      — `WiringRuntime._resolve_runtime` on one value;
  * `resL` / `resT` / `resD` — its list / tuple / dict comprehensions;
  * `fmt`      — the `re.sub` loop of `_format_string_constant`. -/
inductive CallK
  | acc (n : String)
  | attr (n : String)
  | impl (n : String)
  | implBody (n : String)
  | res (o : RV) (ctx : String)
  | resL (os : List RV) (ctx : String)
  | resT (os : List RV) (ctx : String)
  | resD (items : List (DKey × RV)) (ctx : String)
  | fmt (segs : List Seg) (ctx : String)

/-- Fuel-indexed interpreter for the non-thread-safe runtime path of
`WiringRuntime` (runtime.py).  Fuel is a totality artifact: every call
consumes one unit, and exhaustion returns the distinguished `fuelOut`
error which no branch of the embedded code can produce or catch. -/
def run (env : Env) : Nat → CallK → St → Except Exc RTV × St
  | 0, _, s => (.error .fuelOut, s)
  | Nat.succ f, c, s =>
    match c with
    | .acc n =>
      if (alookup s.values n).isSome ∨ (alookup env.parsed n).isSome then
        match alookup s.values n with
        | some v => fastPathOn s v
        | none => run env f (.attr n) s
      else (.error (.attrError n), s)
    | .attr n =>
      match alookup s.values n with
      | some v => (.ok v, s)
      | none =>
        match run env f (.impl n) s with
        | (.ok val, s1) => (.ok val, vset s1 n val)
        | (.error e, s1) => (.error e, s1)
    | .impl n =>
      if n ∈ s.stack then
        if ¬ env.allowP then
          (.error (.circular ("Circular wiring dependency detected: "
            ++ joinArrow (s.stack ++ [n]))), s)
        else
          match alookup env.parsed n with
          | some pe =>
            if pe.isSynthetic then
              (.error (.circular
                ("Circular wiring dependency detected while resolving '" ++ n ++ "'")), s)
            else
              let k := s.nextId
              let s1 : St :=
                { values := s.values
                  stack := s.stack
                  attrs := attrsSet s.attrs k ⟨true, false, none⟩
                  nextId := k + 1
                  ctorCount := s.ctorCount }
              (.ok (.obj k), vset s1 n (.obj k))
          | none =>
            (.error (.circular
              ("Circular wiring dependency detected while resolving '" ++ n ++ "'")), s)
      else
        let rs := run env f (.implBody n) { s with stack := s.stack ++ [n] }
        (rs.1, { rs.2 with stack := rs.2.stack.dropLast })
    | .implBody n =>
      match alookup s.values n with
      | some v => (.ok v, s)
      | none =>
        match alookup env.parsed n with
        | none => (.error (.up n none), s)
        | some pe =>
          if pe.isSynthetic then
            match pe.data with
            | .prim (.pstr t) =>
              match run env f (.fmt (splitPH t.data) n) s with
              | (.ok v, s1) => (.ok v, vset s1 n v)
              | (.error e, s1) => (.error e, s1)
            | _ => (.error (.wmsg
                ("Auto-promoted constant '" ++ n ++ "' template is not a string")), s)
          else
            match run env f (.res pe.data n) s with
            | (.error e, s1) => (.error e, s1)
            | (.ok kw, s1) =>
              let _argsplit := normalizeArgs kw
              match alookup s1.values n with
              | some (.obj k) =>
                if (attrsGet s1.attrs k).pmark then bindSkeleton env s1 n pe k
                else normalCtor env s1 n
              | _ => normalCtor env s1 n
    | .res o ctx =>
      match o with
      | .ref name =>
        if (alookup s.values name).isNone ∧ (alookup env.parsed name).isNone then
          (.error (.up name (some ctx)), s)
        else run env f (.acc name) s
      | .prim p => (.ok (.prim p), s)
      | .dict items => run env f (.resD items ctx) s
      | .list os => run env f (.resL os ctx) s
      | .tup os => run env f (.resT os ctx) s
    | .resL os ctx =>
      match os with
      | [] => (.ok (.list []), s)
      | o :: rest =>
        match run env f (.res o ctx) s with
        | (.error e, s1) => (.error e, s1)
        | (.ok x, s1) =>
          match run env f (.resL rest ctx) s1 with
          | (.ok (.list xs), s2) => (.ok (.list (x :: xs)), s2)
          | (.ok _, s2) => (.error .bug, s2)
          | (.error e, s2) => (.error e, s2)
    | .resT os ctx =>
      match run env f (.resL os ctx) s with
      | (.ok (.list xs), s1) => (.ok (.tup xs), s1)
      | (.ok _, s1) => (.error .bug, s1)
      | (.error e, s1) => (.error e, s1)
    | .resD items ctx =>
      match items with
      | [] => (.ok (.dict []), s)
      | (dk, o) :: rest =>
        match run env f (.res o ctx) s with
        | (.error e, s1) => (.error e, s1)
        | (.ok x, s1) =>
          match run env f (.resD rest ctx) s1 with
          | (.ok (.dict xs), s2) => (.ok (.dict ((dk, x) :: xs)), s2)
          | (.ok _, s2) => (.error .bug, s2)
          | (.error e, s2) => (.error e, s2)
    | .fmt segs ctx =>
      match segs with
      | [] => (.ok (.prim (.pstr "")), s)
      | .lit ch :: rest =>
        match run env f (.fmt rest ctx) s with
        | (.ok (.prim (.pstr t)), s1) => (.ok (.prim (.pstr ⟨ch :: t.data⟩)), s1)
        | (.ok _, s1) => (.error .bug, s1)
        | (.error e, s1) => (.error e, s1)
      | .ph name :: rest =>
        if (alookup s.values name).isNone ∧ (alookup env.parsed name).isNone then
          (.error (.up name (some ctx)), s)
        else
          match run env f (.acc name) s with
          | (.error e, s1) => (.error e, s1)
          | (.ok v, s1) =>
            match run env f (.fmt rest ctx) s1 with
            | (.ok (.prim (.pstr t)), s2) =>
                (.ok (.prim (.pstr (strOf v ++ t))), s2)
            | (.ok _, s2) => (.error .bug, s2)
            | (.error e, s2) => (.error e, s2)

end Apywire


namespace Apywire

/- ------------------------------------------------------------------
State-component lemmas for the runtime operations.
------------------------------------------------------------------- -/

@[simp] theorem stack_vset (s : St) (n : String) (v : RTV) :
    (vset s n v).stack = s.stack := rfl

@[simp] theorem stack_vdel (s : St) (n : String) :
    (vdel s n).stack = s.stack := rfl

@[simp] theorem stack_cbump (s : St) (n : String) :
    (cbump s n).stack = s.stack := rfl

@[simp] theorem stack_finalize (s : St) (k : Nat) (e : Option Exc) :
    (finalize_skeleton s k e).stack = s.stack := rfl

@[simp] theorem stack_cleanup (s : St) (n : String) (k : Nat) (e : Exc) :
    (cleanup_skeleton s n k e).stack = s.stack := by
  unfold cleanup_skeleton
  repeat' split
  all_goals rfl

@[simp] theorem stack_bindSkeleton (env : Env) (s : St) (n : String) (pe : PEntry) (k : Nat) :
    ((bindSkeleton env s n pe k).2).stack = s.stack := by
  unfold bindSkeleton
  repeat' split
  all_goals simp

@[simp] theorem stack_normalCtor (env : Env) (s : St) (n : String) :
    ((normalCtor env s n).2).stack = s.stack := by
  unfold normalCtor
  split
  all_goals simp

@[simp] theorem snd_fastPathOn (s : St) (v : RTV) :
    (fastPathOn s v).2 = s := by
  unfold fastPathOn
  repeat' split
  all_goals rfl

/-- The resolving stack after any interpreter call equals the stack
before it: the only call that pushes (`impl`) pops again in its
`finally`, whether the body returned normally or raised. -/
theorem run_stack (env : Env) : ∀ (f : Nat) (c : CallK) (s : St),
    ((run env f c s).2).stack = s.stack := by
  intro f
  induction f with
  | zero => intro c s; rfl
  | succ f ih =>
    intro c s
    cases c with
    | acc n =>
      simp only [run]
      split
      · cases hv : alookup s.values n with
        | some v => simp
        | none =>
          rcases hr : run env f (.attr n) s with ⟨r, s1⟩
          have hh := ih (.attr n) s
          rw [hr] at hh
          exact hh
      · rfl
    | attr n =>
      simp only [run]
      cases hv : alookup s.values n with
      | some v => rfl
      | none =>
        rcases hr : run env f (.impl n) s with ⟨r, s1⟩
        have hh := ih (.impl n) s
        rw [hr] at hh
        cases r with
        | ok val => simpa using hh
        | error e => exact hh
    | impl n =>
      simp only [run]
      split
      · split
        · rfl
        · split
          · split
            · rfl
            · simp
          · rfl
      · have hh := ih (.implBody n) { s with stack := s.stack ++ [n] }
        simp only at hh
        simp only [hh, List.dropLast_concat]
    | implBody n =>
      have key2 : ∀ (c' : CallK),
          ((match run env f c' s with
            | (Except.ok v, s1) => (Except.ok v, vset s1 n v)
            | (Except.error e, s1) => (Except.error e, s1)) :
            Except Exc RTV × St).2.stack = s.stack := by
        intro c'
        rcases hr : run env f c' s with ⟨r, s1⟩
        have hh := ih c' s
        rw [hr] at hh
        cases r with
        | ok v => simpa using hh
        | error e => exact hh
      simp only [run]
      cases hv : alookup s.values n with
      | some v => rfl
      | none =>
        cases hp : alookup env.parsed n with
        | none => rfl
        | some pe =>
          dsimp only
          split
          · split
            · exact key2 _
            all_goals rfl
          · rcases hr : run env f (.res pe.data n) s with ⟨r, s1⟩
            have hh := ih (.res pe.data n) s
            rw [hr] at hh
            cases r with
            | error e => exact hh
            | ok kw =>
              dsimp only
              cases hc : alookup s1.values n with
              | some cv =>
                cases cv with
                | obj k =>
                  dsimp only
                  split
                  · simpa using hh
                  · simpa using hh
                | prim p => simpa using hh
                | list xs => simpa using hh
                | tup xs => simpa using hh
                | dict xs => simpa using hh
              | none => simpa using hh
    | res o ctx =>
      cases o with
      | ref name =>
        simp only [run]
        split
        · rfl
        · rcases hr : run env f (.acc name) s with ⟨r, s1⟩
          have hh := ih (.acc name) s
          rw [hr] at hh
          exact hh
      | prim p => rfl
      | dict items =>
        simp only [run]
        exact ih (.resD items ctx) s
      | list os =>
        simp only [run]
        exact ih (.resL os ctx) s
      | tup os =>
        simp only [run]
        exact ih (.resT os ctx) s
    | resL os ctx =>
      cases os with
      | nil => rfl
      | cons o rest =>
        simp only [run]
        rcases hr : run env f (.res o ctx) s with ⟨r, s1⟩
        have hh := ih (.res o ctx) s
        rw [hr] at hh
        cases r with
        | error e => exact hh
        | ok x =>
          dsimp only
          rcases hr2 : run env f (.resL rest ctx) s1 with ⟨r2, s2⟩
          have hh2 := ih (.resL rest ctx) s1
          rw [hr2] at hh2
          cases r2 with
          | error e => exact hh2.trans hh
          | ok y => cases y <;> exact hh2.trans hh
    | resT os ctx =>
      simp only [run]
      rcases hr : run env f (.resL os ctx) s with ⟨r, s1⟩
      have hh := ih (.resL os ctx) s
      rw [hr] at hh
      cases r with
      | error e => exact hh
      | ok y => cases y <;> exact hh
    | resD items ctx =>
      cases items with
      | nil => rfl
      | cons kv rest =>
        rcases kv with ⟨dk, o⟩
        simp only [run]
        rcases hr : run env f (.res o ctx) s with ⟨r, s1⟩
        have hh := ih (.res o ctx) s
        rw [hr] at hh
        cases r with
        | error e => exact hh
        | ok x =>
          dsimp only
          rcases hr2 : run env f (.resD rest ctx) s1 with ⟨r2, s2⟩
          have hh2 := ih (.resD rest ctx) s1
          rw [hr2] at hh2
          cases r2 with
          | error e => exact hh2.trans hh
          | ok y => cases y <;> exact hh2.trans hh
    | fmt segs ctx =>
      cases segs with
      | nil => rfl
      | cons sg rest =>
        cases sg with
        | lit ch =>
          simp only [run]
          rcases hr : run env f (.fmt rest ctx) s with ⟨r, s1⟩
          have hh := ih (.fmt rest ctx) s
          rw [hr] at hh
          cases r with
          | error e => exact hh
          | ok y =>
            cases y with
            | prim p => cases p <;> exact hh
            | obj k => exact hh
            | list xs => exact hh
            | tup xs => exact hh
            | dict xs => exact hh
        | ph name =>
          simp only [run]
          split
          · rfl
          · rcases hr : run env f (.acc name) s with ⟨r, s1⟩
            have hh := ih (.acc name) s
            rw [hr] at hh
            cases r with
            | error e => exact hh
            | ok v =>
              dsimp only
              rcases hr2 : run env f (.fmt rest ctx) s1 with ⟨r2, s2⟩
              have hh2 := ih (.fmt rest ctx) s1
              rw [hr2] at hh2
              cases r2 with
              | error e => exact hh2.trans hh
              | ok y =>
                cases y with
                | prim p => cases p <;> exact hh2.trans hh
                | obj k => exact hh2.trans hh
                | list xs => exact hh2.trans hh
                | tup xs => exact hh2.trans hh
                | dict xs => exact hh2.trans hh

end Apywire

namespace Apywire

/- ------------------------------------------------------------------
Claim C10: the resolving stack is restored by every build.
------------------------------------------------------------------- -/

/-- Claim C10.  Every accessor invocation — and every
`_instantiate_impl` call — leaves the task's resolving stack exactly as
it found it: the built name is pushed and popped in a `finally` block,
so whether the build returns normally or raises any exception, the
stack after the call equals the stack before it. -/
theorem c10_resolving_stack_restored (env : Env) (f : Nat) (n : String) (s : St) :
    ((run env f (.acc n) s).2).stack = s.stack
    ∧ ((run env f (.impl n) s).2).stack = s.stack :=
  ⟨run_stack env f (.acc n) s, run_stack env f (.impl n) s⟩

/- ------------------------------------------------------------------
Well-formedness of runtime states and cache preservation.
------------------------------------------------------------------- -/

mutual

/-- Every host-object id occurring in a runtime value is below the
bound `b` (all cached objects were allocated by the id counter). -/
def idsBelowB : RTV → Nat → Bool
  | .prim _, _ => true
  | .obj k, b => decide (k < b)
  | .list xs, b => idsBelowLB xs b
  | .tup xs, b => idsBelowLB xs b
  | .dict items, b => idsBelowDB items b

/-- List part of `idsBelowB`. -/
def idsBelowLB : List RTV → Nat → Bool
  | [], _ => true
  | x :: xs, b => idsBelowB x b && idsBelowLB xs b

/-- Mapping part of `idsBelowB`. -/
def idsBelowDB : List (DKey × RTV) → Nat → Bool
  | [], _ => true
  | kv :: items, b => idsBelowB kv.2 b && idsBelowDB items b

end

/-- Well-formed runtime state: every object with marker attributes and
every object cached in `values` was allocated by the id counter, and a
skeleton whose event has been signalled is never still partial (the
finalizers clear the flag before setting the event). -/
def WF (s : St) : Prop :=
  (∀ p ∈ s.attrs, p.1 < s.nextId)
  ∧ (∀ p ∈ s.values, idsBelowB p.2 s.nextId = true)
  ∧ (∀ p ∈ s.attrs, p.2.pmark = true → p.2.event = false)

/-- The values cache holds the finalized (non-partial) value `v` for
`n`. -/
def Good (s : St) (n : String) (v : RTV) : Prop :=
  alookup s.values n = some v ∧ isPartialV s v = false

/-- Precondition under which the runtime invokes each call:
`_instantiate_impl` is only ever invoked (by `_instantiate_attr`) after
a cache miss on its name. -/
def callOK : CallK → St → Prop
  | .impl m, s => alookup s.values m = none
  | _, _ => True

theorem alookup_mem {β : Type} {l : List (String × β)} {n : String} {v : β}
    (h : alookup l n = some v) : (n, v) ∈ l := by
  induction l with
  | nil => exact absurd h (by simp [alookup])
  | cons p rest ih =>
    rcases p with ⟨k, w⟩
    by_cases hk : k = n
    · subst hk
      simp only [alookup, if_pos rfl] at h
      cases h
      exact List.mem_cons_self _ _
    · simp only [alookup, if_neg hk] at h
      exact List.mem_cons_of_mem _ (ih h)

@[simp] theorem alookup_vset_self (s : St) (n : String) (v : RTV) :
    alookup (vset s n v).values n = some v := by
  simp [vset, alookup]

theorem alookup_vset_ne (s : St) (n n' : String) (v : RTV) (h : ¬ n = n') :
    alookup (vset s n v).values n' = alookup s.values n' := by
  simp [vset, alookup, h]

@[simp] theorem alookup_vdel_self (s : St) (n : String) :
    alookup (vdel s n).values n = none := by
  show alookup (eraseKey s.values n) n = none
  induction s.values with
  | nil => rfl
  | cons p rest ih =>
    rcases p with ⟨k, w⟩
    by_cases hk : k = n
    · simpa [eraseKey, hk] using ih
    · simpa [eraseKey, alookup, hk] using ih

theorem alookup_vdel_ne (s : St) (n n' : String) (h : ¬ n = n') :
    alookup (vdel s n).values n' = alookup s.values n' := by
  show alookup (eraseKey s.values n) n' = _
  induction s.values with
  | nil => rfl
  | cons p rest ih =>
    rcases p with ⟨k, w⟩
    by_cases hk : k = n
    · subst hk
      have hk' : ¬ k = n' := h
      simpa [eraseKey, alookup, hk'] using ih
    · by_cases hk' : k = n'
      · subst hk'
        simp [eraseKey, alookup, hk]
      · simpa [eraseKey, alookup, hk, hk'] using ih

theorem mem_vdel {s : St} {n : String} {p : String × RTV}
    (h : p ∈ (vdel s n).values) : p ∈ s.values := by
  show p ∈ s.values
  have : ∀ (l : List (String × RTV)), p ∈ eraseKey l n → p ∈ l := by
    intro l
    induction l with
    | nil => intro h2; exact absurd h2 (by simp [eraseKey])
    | cons q rest ih =>
      intro h2
      by_cases hq : q.1 = n
      · simp only [eraseKey, if_pos hq] at h2
        exact List.mem_cons_of_mem _ (ih h2)
      · simp only [eraseKey, if_neg hq] at h2
        rcases List.mem_cons.mp h2 with h3 | h3
        · exact h3 ▸ List.mem_cons_self _ _
        · exact List.mem_cons_of_mem _ (ih h3)
  exact this s.values h

@[simp] theorem attrsGet_set_self (l : List (Nat × ObjAttrs)) (k : Nat) (a : ObjAttrs) :
    attrsGet (attrsSet l k a) k = a := by
  simp [attrsSet, attrsGet]

theorem attrsGet_set_ne (l : List (Nat × ObjAttrs)) (k k' : Nat) (a : ObjAttrs)
    (h : ¬ k = k') : attrsGet (attrsSet l k a) k' = attrsGet l k' := by
  simp [attrsSet, attrsGet, h]

theorem attrsGet_pmark_mem {l : List (Nat × ObjAttrs)} {k : Nat}
    (h : (attrsGet l k).pmark = true) : (k, attrsGet l k) ∈ l := by
  induction l with
  | nil => exact absurd h (by simp [attrsGet, defaultAttrs])
  | cons p rest ih =>
    rcases p with ⟨i, a⟩
    by_cases hi : i = k
    · subst hi
      simp [attrsGet]
    · simp only [attrsGet, if_neg hi] at h ⊢
      exact List.mem_cons_of_mem _ (ih h)

theorem attrsGet_default_of_ge {l : List (Nat × ObjAttrs)} {b k : Nat}
    (hb : ∀ p ∈ l, p.1 < b) (hk : b ≤ k) : attrsGet l k = defaultAttrs := by
  induction l with
  | nil => rfl
  | cons p rest ih =>
    rcases p with ⟨i, a⟩
    have hi : i < b := hb (i, a) (List.mem_cons_self _ _)
    have : ¬ i = k := by omega
    simp only [attrsGet, if_neg this]
    exact ih (fun q hq => hb q (List.mem_cons_of_mem _ hq))

mutual

theorem idsBelow_mono : ∀ (v : RTV) (b b' : Nat), b ≤ b' →
    idsBelowB v b = true → idsBelowB v b' = true
  | .prim _, _, _, _, _ => rfl
  | .obj k, b, b', hb, h => by
    simp only [idsBelowB, decide_eq_true_eq] at h ⊢
    omega
  | .list xs, b, b', hb, h => idsBelowL_mono xs b b' hb h
  | .tup xs, b, b', hb, h => idsBelowL_mono xs b b' hb h
  | .dict items, b, b', hb, h => idsBelowD_mono items b b' hb h

theorem idsBelowL_mono : ∀ (xs : List RTV) (b b' : Nat), b ≤ b' →
    idsBelowLB xs b = true → idsBelowLB xs b' = true
  | [], _, _, _, _ => rfl
  | x :: xs, b, b', hb, h => by
    simp only [idsBelowLB, Bool.and_eq_true] at h ⊢
    exact ⟨idsBelow_mono x b b' hb h.1, idsBelowL_mono xs b b' hb h.2⟩

theorem idsBelowD_mono : ∀ (items : List (DKey × RTV)) (b b' : Nat), b ≤ b' →
    idsBelowDB items b = true → idsBelowDB items b' = true
  | [], _, _, _, _ => rfl
  | kv :: items, b, b', hb, h => by
    simp only [idsBelowDB, Bool.and_eq_true] at h ⊢
    exact ⟨idsBelow_mono kv.2 b b' hb h.1, idsBelowD_mono items b b' hb h.2⟩

end

end Apywire

namespace Apywire

@[simp] theorem nextId_vset (s : St) (n : String) (v : RTV) :
    (vset s n v).nextId = s.nextId := rfl

@[simp] theorem nextId_vdel (s : St) (n : String) :
    (vdel s n).nextId = s.nextId := rfl

@[simp] theorem nextId_cbump (s : St) (n : String) :
    (cbump s n).nextId = s.nextId := rfl

@[simp] theorem nextId_finalize (s : St) (k : Nat) (e : Option Exc) :
    (finalize_skeleton s k e).nextId = s.nextId := rfl

@[simp] theorem attrs_vset (s : St) (n : String) (v : RTV) :
    (vset s n v).attrs = s.attrs := rfl

@[simp] theorem attrs_vdel (s : St) (n : String) :
    (vdel s n).attrs = s.attrs := rfl

@[simp] theorem attrs_cbump (s : St) (n : String) :
    (cbump s n).attrs = s.attrs := rfl

@[simp] theorem values_cbump (s : St) (n : String) :
    (cbump s n).values = s.values := rfl

@[simp] theorem values_finalize (s : St) (k : Nat) (e : Option Exc) :
    (finalize_skeleton s k e).values = s.values := rfl

@[simp] theorem nextId_cleanup (s : St) (n : String) (k : Nat) (e : Exc) :
    (cleanup_skeleton s n k e).nextId = s.nextId := by
  unfold cleanup_skeleton
  repeat' split
  all_goals rfl

@[simp] theorem nextId_bindSkeleton (env : Env) (s : St) (n : String) (pe : PEntry) (k : Nat) :
    ((bindSkeleton env s n pe k).2).nextId = s.nextId := by
  unfold bindSkeleton
  repeat' split
  all_goals simp

theorem nextId_normalCtor_ge (env : Env) (s : St) (n : String) :
    s.nextId ≤ ((normalCtor env s n).2).nextId := by
  unfold normalCtor
  split
  · simp
  · simp

theorem fastPath_ok {s : St} {v val : RTV}
    (h : (fastPathOn s v).1 = Except.ok val) : val = v := by
  unfold fastPathOn at h
  repeat' split at h
  all_goals first
    | (cases h; rfl)
    | exact absurd h (by simp)

/-- A value cached under a well-formed state has all its object ids
below the allocator. -/
theorem good_bound {s : St} {n : String} {v : RTV} (hwf : WF s)
    (h : alookup s.values n = some v) : idsBelowB v s.nextId = true :=
  hwf.2.1 (n, v) (alookup_mem h)

/-- Publishing a value keeps the state well-formed. -/
theorem WF_vset {s : St} {n : String} {val : RTV} (hwf : WF s)
    (hval : idsBelowB val s.nextId = true) : WF (vset s n val) := by
  refine ⟨hwf.1, ?_, hwf.2.2⟩
  intro p hp
  rcases List.mem_cons.mp hp with h | h
  · subst h
    exact hval
  · exact hwf.2.1 p h

/-- Publishing a value under another name preserves a finalized cache
entry. -/
theorem good_vset_ne {s : St} {n n2 : String} {v val : RTV} (hne : ¬ n = n2)
    (hg : Good s n v) : Good (vset s n2 val) n v := by
  refine ⟨?_, hg.2⟩
  rw [alookup_vset_ne s n2 n val (fun h => hne h.symm)]
  exact hg.1

theorem WF_finalize {s : St} {k : Nat} {e : Option Exc} (hwf : WF s)
    (hk : k < s.nextId) : WF (finalize_skeleton s k e) := by
  refine ⟨?_, hwf.2.1, ?_⟩
  · intro p hp
    rcases List.mem_cons.mp hp with h | h
    · subst h
      exact hk
    · exact hwf.1 p h
  · intro p hp
    rcases List.mem_cons.mp hp with h | h
    · subst h
      intro hpm
      exact absurd hpm (by simp)
    · exact hwf.2.2 p h

/-- Finalizing any skeleton never makes a non-partial value partial. -/
theorem isPartial_finalize {s : St} {k : Nat} {e : Option Exc} {v : RTV}
    (h : isPartialV s v = false) : isPartialV (finalize_skeleton s k e) v = false := by
  cases v with
  | obj kv =>
    by_cases hk : k = kv
    · subst hk
      show (attrsGet (attrsSet _ k _) k).pmark = false
      simp
    · show (attrsGet (attrsSet _ k _) kv).pmark = false
      rw [attrsGet_set_ne _ _ _ _ hk]
      exact h
  | prim p => rfl
  | list xs => rfl
  | tup xs => rfl
  | dict xs => rfl

theorem good_finalize {s : St} {k : Nat} {e : Option Exc} {n : String} {v : RTV}
    (hg : Good s n v) : Good (finalize_skeleton s k e) n v :=
  ⟨hg.1, isPartial_finalize hg.2⟩

theorem WF_cleanup {s : St} {n2 : String} {k : Nat} {e : Exc} (hwf : WF s)
    (hk : k < s.nextId) : WF (cleanup_skeleton s n2 k e) := by
  have hwf2 := WF_finalize (e := some e) hwf hk
  unfold cleanup_skeleton
  repeat' split
  · exact ⟨hwf2.1, fun p hp => hwf2.2.1 p (mem_vdel hp), hwf2.2.2⟩
  · exact hwf2
  · exact hwf2

/-- Cleanup after a failed partial build preserves every finalized
cache entry: the deletion is guarded by an identity check against the
failing skeleton, and a finalized entry can never be that skeleton
(its partial flag is false while the skeleton's is true). -/
theorem good_cleanup {s : St} {n2 : String} {k : Nat} {e : Exc} {n : String} {v : RTV}
    (hpm : (attrsGet s.attrs k).pmark = true) (hg : Good s n v) :
    Good (cleanup_skeleton s n2 k e) n v := by
  have hg2 := good_finalize (k := k) (e := some e) hg
  unfold cleanup_skeleton
  rcases hlk : alookup (finalize_skeleton s k (some e)).values n2 with _ | w
  · exact hg2
  · cases w with
    | obj k2 =>
      dsimp only
      by_cases hk2 : k2 = k
      · rw [if_pos hk2]
        refine ⟨?_, hg2.2⟩
        by_cases hn : n = n2
        · subst hn
          have hv : v = RTV.obj k2 := by
            have h1 : alookup s.values n = some (RTV.obj k2) := hlk
            rw [hg.1] at h1
            cases h1
            rfl
          exfalso
          have h2 := hg.2
          rw [hv] at h2
          subst hk2
          simp only [isPartialV] at h2
          rw [h2] at hpm
          exact Bool.noConfusion hpm
        · rw [alookup_vdel_ne _ _ _ (fun h => hn h.symm)]
          exact hg2.1
      · rw [if_neg hk2]
        exact hg2
    | prim p => exact hg2
    | list xs => exact hg2
    | tup xs => exact hg2
    | dict xs => exact hg2

theorem bindSkeleton_master (env : Env) (s : St) (n2 : String) (pe : PEntry) (k : Nat)
    (hwf : WF s) (hpm : (attrsGet s.attrs k).pmark = true) :
    WF ((bindSkeleton env s n2 pe k).2)
    ∧ (∀ val, (bindSkeleton env s n2 pe k).1 = Except.ok val →
        idsBelowB val ((bindSkeleton env s n2 pe k).2).nextId = true)
    ∧ (∀ n v, Good s n v → Good ((bindSkeleton env s n2 pe k).2) n v) := by
  have hk : k < s.nextId := hwf.1 _ (attrsGet_pmark_mem hpm)
  have hwfc : WF (cbump s n2) := hwf
  have hpmc : (attrsGet (cbump s n2).attrs k).pmark = true := hpm
  have hfail : ∀ (exc : Exc),
      WF (cleanup_skeleton (cbump s n2) n2 k exc)
      ∧ (∀ val : RTV, (Except.error exc : Except Exc RTV) = Except.ok val →
          idsBelowB val ((cleanup_skeleton (cbump s n2) n2 k exc)).nextId = true)
      ∧ (∀ n v, Good s n v → Good (cleanup_skeleton (cbump s n2) n2 k exc) n v) := by
    intro exc
    exact ⟨WF_cleanup hwfc hk, fun val hval => absurd hval (by simp),
      fun n v hg => good_cleanup hpmc ⟨hg.1, hg.2⟩⟩
  have hsucc :
      WF (finalize_skeleton (cbump s n2) k none)
      ∧ (∀ val : RTV, (Except.ok (RTV.obj k) : Except Exc RTV) = Except.ok val →
          idsBelowB val ((finalize_skeleton (cbump s n2) k none)).nextId = true)
      ∧ (∀ n v, Good s n v → Good (finalize_skeleton (cbump s n2) k none) n v) := by
    refine ⟨WF_finalize hwfc hk, ?_, fun n v hg => good_finalize ⟨hg.1, hg.2⟩⟩
    intro val hval
    have hv2 : RTV.obj k = val := by simpa using hval
    subst hv2
    show decide (k < s.nextId) = true
    simpa using hk
  unfold bindSkeleton
  split
  · split
    · exact hfail _
    · split
      · exact hsucc
      · exact hfail _
  · split
    · exact hfail _
    · exact hsucc

theorem normalCtor_master (env : Env) (s : St) (n2 : String) (hwf : WF s) :
    WF ((normalCtor env s n2).2)
    ∧ s.nextId ≤ ((normalCtor env s n2).2).nextId
    ∧ (∀ val, (normalCtor env s n2).1 = Except.ok val →
        idsBelowB val ((normalCtor env s n2).2).nextId = true)
    ∧ (∀ n v, Good s n v → Good ((normalCtor env s n2).2) n v) := by
  unfold normalCtor
  split
  · exact ⟨hwf, le_refl _, fun val hval => absurd hval (by simp),
      fun n v hg => ⟨hg.1, hg.2⟩⟩
  · refine ⟨⟨?_, ?_, hwf.2.2⟩, ?_, ?_, ?_⟩
    · intro p hp
      have h2 := hwf.1 p hp
      show p.1 < s.nextId + 1
      omega
    · intro p hp
      exact idsBelow_mono _ _ _ (Nat.le_succ _) (hwf.2.1 p hp)
    · show s.nextId ≤ s.nextId + 1
      exact Nat.le_succ _
    · intro val hval
      have hv2 : RTV.obj s.nextId = val := by simpa using hval
      subst hv2
      show decide (s.nextId < s.nextId + 1) = true
      simp
    · intro n v hg
      exact ⟨hg.1, hg.2⟩

end Apywire

namespace Apywire

/-- Packaged trivial conclusions for branches that raise without
mutating the state. -/
theorem master_err {s : St} (hwf : WF s) {e : Exc} :
    WF s ∧ s.nextId ≤ s.nextId
    ∧ (∀ val : RTV, (Except.error e : Except Exc RTV) = Except.ok val →
        idsBelowB val s.nextId = true)
    ∧ (∀ n v, Good s n v → Good s n v) :=
  ⟨hwf, le_refl _, fun _ hval => absurd hval (by simp), fun _ _ hg => hg⟩

/-- Master preservation lemma for the interpreter: starting from a
well-formed state (and, for `_instantiate_impl`, after the cache miss
that gates its invocation), every call keeps the state well-formed,
never decreases the id allocator, returns values whose object ids were
allocated, and preserves every finalized cache entry — `values[n]`,
once it holds a finalized value, is never replaced or removed. -/
theorem run_master (env : Env) : ∀ (f : Nat) (c : CallK) (s : St),
    WF s → callOK c s →
    WF ((run env f c s).2)
    ∧ s.nextId ≤ ((run env f c s).2).nextId
    ∧ (∀ val, (run env f c s).1 = Except.ok val →
        idsBelowB val ((run env f c s).2).nextId = true)
    ∧ (∀ n v, Good s n v → Good ((run env f c s).2) n v) := by
  intro f
  induction f with
  | zero =>
    intro c s hwf hok
    exact master_err hwf
  | succ f ih =>
    intro c s hwf hok
    cases c with
    | acc n =>
      simp only [run]
      split
      · cases hv : alookup s.values n with
        | some v =>
          have hst : (fastPathOn s v).2 = s := snd_fastPathOn s v
          rw [hst]
          refine ⟨hwf, le_refl _, ?_, fun n0 v0 hg => hg⟩
          intro val hval
          have := fastPath_ok hval
          subst this
          exact good_bound hwf hv
        | none => exact ih (.attr n) s hwf trivial
      · exact master_err hwf
    | attr n =>
      simp only [run]
      cases hv : alookup s.values n with
      | some v =>
        refine ⟨hwf, le_refl _, ?_, fun n0 v0 hg => hg⟩
        intro val hval
        have : v = val := by simpa using hval
        subst this
        exact good_bound hwf hv
      | none =>
        rcases hr : run env f (.impl n) s with ⟨r, s1⟩
        have ihm := ih (.impl n) s hwf hv
        rw [hr] at ihm
        obtain ⟨hwf1, hmono1, hR1, hG1⟩ := ihm
        cases r with
        | ok val =>
          have hbound : idsBelowB val s1.nextId = true := hR1 val rfl
          dsimp only
          refine ⟨WF_vset hwf1 hbound, hmono1, ?_, ?_⟩
          · intro val2 hval2
            have : val = val2 := by simpa using hval2
            subst this
            exact hbound
          · intro n0 v0 hg
            by_cases hn : n0 = n
            · subst hn
              have h1 := hg.1
              rw [hv] at h1
              exact absurd h1 (by simp)
            · exact good_vset_ne hn (hG1 n0 v0 hg)
        | error e =>
          exact ⟨hwf1, hmono1, fun val hval => absurd hval (by simp), hG1⟩
    | impl n =>
      simp only [run]
      split
      · split
        · exact master_err hwf
        · split
          · split
            · exact master_err hwf
            · -- skeleton allocation and caching (cycle re-entry)
              have hnone : alookup s.values n = none := hok
              refine ⟨⟨?_, ?_, ?_⟩, ?_, ?_, ?_⟩
              · intro p hp
                rcases List.mem_cons.mp hp with h | h
                · subst h
                  show s.nextId < s.nextId + 1
                  omega
                · have := hwf.1 p h
                  show p.1 < s.nextId + 1
                  omega
              · intro p hp
                rcases List.mem_cons.mp hp with h | h
                · subst h
                  show decide (s.nextId < s.nextId + 1) = true
                  simp
                · exact idsBelow_mono _ _ _ (Nat.le_succ _) (hwf.2.1 p h)
              · intro p hp
                rcases List.mem_cons.mp hp with h | h
                · subst h
                  intro _
                  rfl
                · exact hwf.2.2 p h
              · show s.nextId ≤ s.nextId + 1
                exact Nat.le_succ _
              · intro val hval
                have : RTV.obj s.nextId = val := by simpa using hval
                subst this
                show decide (s.nextId < s.nextId + 1) = true
                simp
              · intro n0 v0 hg
                by_cases hn : n0 = n
                · subst hn
                  have h1 := hg.1
                  rw [hnone] at h1
                  exact absurd h1 (by simp)
                · refine ⟨?_, ?_⟩
                  · have hne : ¬ n = n0 := fun h => hn h.symm
                    show alookup ((n, RTV.obj s.nextId) :: s.values) n0 = some v0
                    simp only [alookup, if_neg hne]
                    exact hg.1
                  · cases hv0 : v0 with
                    | obj kv =>
                      have hb := good_bound hwf hg.1
                      rw [hv0] at hb
                      simp only [idsBelowB, decide_eq_true_eq] at hb
                      show (attrsGet (attrsSet s.attrs s.nextId ⟨true, false, none⟩) kv).pmark = false
                      rw [attrsGet_set_ne _ _ _ _ (by omega)]
                      have h2 := hg.2
                      rw [hv0] at h2
                      exact h2
                    | prim p => rfl
                    | list xs => rfl
                    | tup xs => rfl
                    | dict xs => rfl
          · exact master_err hwf
      · have hwf1 : WF { s with stack := s.stack ++ [n] } := hwf
        have ihm := ih (.implBody n) { s with stack := s.stack ++ [n] } hwf1 trivial
        exact ⟨ihm.1, ihm.2.1, ihm.2.2.1, ihm.2.2.2⟩
    | implBody n =>
      simp only [run]
      cases hv : alookup s.values n with
      | some v =>
        refine ⟨hwf, le_refl _, ?_, fun n0 v0 hg => hg⟩
        intro val hval
        have : v = val := by simpa using hval
        subst this
        exact good_bound hwf hv
      | none =>
        cases hp : alookup env.parsed n with
        | none => exact master_err hwf
        | some pe =>
          dsimp only
          split
          · -- synthetic auto-promoted constant
            split
            · -- the template is a string: interpolate, publish, return
              have pubM : ∀ (c' : CallK), callOK c' s →
                  WF (((match run env f c' s with
                    | (Except.ok v, s1) => (Except.ok v, vset s1 n v)
                    | (Except.error e, s1) => (Except.error e, s1)) :
                      Except Exc RTV × St)).2
                  ∧ s.nextId ≤ (((match run env f c' s with
                    | (Except.ok v, s1) => (Except.ok v, vset s1 n v)
                    | (Except.error e, s1) => (Except.error e, s1)) :
                      Except Exc RTV × St)).2.nextId
                  ∧ (∀ val, (((match run env f c' s with
                    | (Except.ok v, s1) => (Except.ok v, vset s1 n v)
                    | (Except.error e, s1) => (Except.error e, s1)) :
                      Except Exc RTV × St)).1 = Except.ok val →
                      idsBelowB val (((match run env f c' s with
                        | (Except.ok v, s1) => (Except.ok v, vset s1 n v)
                        | (Except.error e, s1) => (Except.error e, s1)) :
                          Except Exc RTV × St)).2.nextId = true)
                  ∧ (∀ n0 v0, Good s n0 v0 → Good (((match run env f c' s with
                    | (Except.ok v, s1) => (Except.ok v, vset s1 n v)
                    | (Except.error e, s1) => (Except.error e, s1)) :
                      Except Exc RTV × St)).2 n0 v0) := by
                intro c' hcall
                rcases hr : run env f c' s with ⟨r, s1⟩
                have ihm := ih c' s hwf hcall
                rw [hr] at ihm
                obtain ⟨hwf1, hmono1, hR1, hG1⟩ := ihm
                cases r with
                | ok v =>
                  have hbound : idsBelowB v s1.nextId = true := hR1 v rfl
                  refine ⟨WF_vset hwf1 hbound, hmono1, ?_, ?_⟩
                  · intro val hval
                    have : v = val := by simpa using hval
                    subst this
                    exact hbound
                  · intro n0 v0 hg
                    by_cases hn : n0 = n
                    · subst hn
                      have h1 := hg.1
                      rw [hv] at h1
                      exact absurd h1 (by simp)
                    · exact good_vset_ne hn (hG1 n0 v0 hg)
                | error e =>
                  exact ⟨hwf1, hmono1, fun val hval => absurd hval (by simp), hG1⟩
              exact pubM _ trivial
            all_goals exact master_err hwf
          · -- wired entry: resolve arguments, then construct
            rcases hr : run env f (.res pe.data n) s with ⟨r, s1⟩
            have ihm := ih (.res pe.data n) s hwf trivial
            rw [hr] at ihm
            obtain ⟨hwf1, hmono1, hR1, hG1⟩ := ihm
            cases r with
            | error e =>
              exact ⟨hwf1, hmono1, fun val hval => absurd hval (by simp), hG1⟩
            | ok kw =>
              dsimp only
              have viaCtor :
                  WF ((normalCtor env s1 n).2)
                  ∧ s.nextId ≤ ((normalCtor env s1 n).2).nextId
                  ∧ (∀ val, (normalCtor env s1 n).1 = Except.ok val →
                      idsBelowB val ((normalCtor env s1 n).2).nextId = true)
                  ∧ (∀ n0 v0, Good s n0 v0 → Good ((normalCtor env s1 n).2) n0 v0) := by
                have ncm := normalCtor_master env s1 n hwf1
                exact ⟨ncm.1, hmono1.trans ncm.2.1, ncm.2.2.1,
                  fun n0 v0 hg => ncm.2.2.2 n0 v0 (hG1 n0 v0 hg)⟩
              cases hc : alookup s1.values n with
              | some cv =>
                cases cv with
                | obj k =>
                  dsimp only
                  split
                  · rename_i hpm
                    have bm := bindSkeleton_master env s1 n pe k hwf1 hpm
                    refine ⟨bm.1, ?_, bm.2.1, fun n0 v0 hg => bm.2.2 n0 v0 (hG1 n0 v0 hg)⟩
                    rw [nextId_bindSkeleton]
                    exact hmono1
                  · exact viaCtor
                | prim p => exact viaCtor
                | list xs => exact viaCtor
                | tup xs => exact viaCtor
                | dict xs => exact viaCtor
              | none => exact viaCtor
    | res o ctx =>
      cases o with
      | ref name =>
        simp only [run]
        split
        · exact master_err hwf
        · exact ih (.acc name) s hwf trivial
      | prim p =>
        refine ⟨hwf, le_refl _, ?_, fun n0 v0 hg => hg⟩
        intro val hval
        have : RTV.prim p = val := by simpa [run] using hval
        subst this
        rfl
      | dict items =>
        simp only [run]
        exact ih (.resD items ctx) s hwf trivial
      | list os =>
        simp only [run]
        exact ih (.resL os ctx) s hwf trivial
      | tup os =>
        simp only [run]
        exact ih (.resT os ctx) s hwf trivial
    | resL os ctx =>
      cases os with
      | nil =>
        refine ⟨hwf, le_refl _, ?_, fun n0 v0 hg => hg⟩
        intro val hval
        have : RTV.list [] = val := by simpa [run] using hval
        subst this
        rfl
      | cons o rest =>
        simp only [run]
        rcases hr : run env f (.res o ctx) s with ⟨r, s1⟩
        have ihm := ih (.res o ctx) s hwf trivial
        rw [hr] at ihm
        obtain ⟨hwf1, hmono1, hR1, hG1⟩ := ihm
        cases r with
        | error e =>
          exact ⟨hwf1, hmono1, fun val hval => absurd hval (by simp), hG1⟩
        | ok x =>
          dsimp only
          rcases hr2 : run env f (.resL rest ctx) s1 with ⟨r2, s2⟩
          have ihm2 := ih (.resL rest ctx) s1 hwf1 trivial
          rw [hr2] at ihm2
          obtain ⟨hwf2, hmono2, hR2, hG2⟩ := ihm2
          have hGc : ∀ n0 v0, Good s n0 v0 → Good s2 n0 v0 :=
            fun n0 v0 hg => hG2 n0 v0 (hG1 n0 v0 hg)
          cases r2 with
          | error e =>
            exact ⟨hwf2, hmono1.trans hmono2, fun val hval => absurd hval (by simp), hGc⟩
          | ok y =>
            cases y with
            | list xs =>
              refine ⟨hwf2, hmono1.trans hmono2, ?_, hGc⟩
              intro val hval
              have : RTV.list (x :: xs) = val := by simpa using hval
              subst this
              have hx : idsBelowB x s2.nextId = true :=
                idsBelow_mono x s1.nextId s2.nextId hmono2 (hR1 x rfl)
              have hxs : idsBelowB (RTV.list xs) s2.nextId = true := hR2 _ rfl
              show idsBelowLB (x :: xs) s2.nextId = true
              simp only [idsBelowLB, Bool.and_eq_true]
              exact ⟨hx, hxs⟩
            | prim p =>
              exact ⟨hwf2, hmono1.trans hmono2, fun val hval => absurd hval (by simp), hGc⟩
            | obj k =>
              exact ⟨hwf2, hmono1.trans hmono2, fun val hval => absurd hval (by simp), hGc⟩
            | tup xs =>
              exact ⟨hwf2, hmono1.trans hmono2, fun val hval => absurd hval (by simp), hGc⟩
            | dict xs =>
              exact ⟨hwf2, hmono1.trans hmono2, fun val hval => absurd hval (by simp), hGc⟩
    | resT os ctx =>
      simp only [run]
      rcases hr : run env f (.resL os ctx) s with ⟨r, s1⟩
      have ihm := ih (.resL os ctx) s hwf trivial
      rw [hr] at ihm
      obtain ⟨hwf1, hmono1, hR1, hG1⟩ := ihm
      cases r with
      | error e =>
        exact ⟨hwf1, hmono1, fun val hval => absurd hval (by simp), hG1⟩
      | ok y =>
        cases y with
        | list xs =>
          refine ⟨hwf1, hmono1, ?_, hG1⟩
          intro val hval
          have : RTV.tup xs = val := by simpa using hval
          subst this
          have := hR1 (RTV.list xs) rfl
          show idsBelowLB xs s1.nextId = true
          exact this
        | prim p => exact ⟨hwf1, hmono1, fun val hval => absurd hval (by simp), hG1⟩
        | obj k => exact ⟨hwf1, hmono1, fun val hval => absurd hval (by simp), hG1⟩
        | tup xs => exact ⟨hwf1, hmono1, fun val hval => absurd hval (by simp), hG1⟩
        | dict xs => exact ⟨hwf1, hmono1, fun val hval => absurd hval (by simp), hG1⟩
    | resD items ctx =>
      cases items with
      | nil =>
        refine ⟨hwf, le_refl _, ?_, fun n0 v0 hg => hg⟩
        intro val hval
        have : RTV.dict [] = val := by simpa [run] using hval
        subst this
        rfl
      | cons kv rest =>
        rcases kv with ⟨dk, o⟩
        simp only [run]
        rcases hr : run env f (.res o ctx) s with ⟨r, s1⟩
        have ihm := ih (.res o ctx) s hwf trivial
        rw [hr] at ihm
        obtain ⟨hwf1, hmono1, hR1, hG1⟩ := ihm
        cases r with
        | error e =>
          exact ⟨hwf1, hmono1, fun val hval => absurd hval (by simp), hG1⟩
        | ok x =>
          dsimp only
          rcases hr2 : run env f (.resD rest ctx) s1 with ⟨r2, s2⟩
          have ihm2 := ih (.resD rest ctx) s1 hwf1 trivial
          rw [hr2] at ihm2
          obtain ⟨hwf2, hmono2, hR2, hG2⟩ := ihm2
          have hGc : ∀ n0 v0, Good s n0 v0 → Good s2 n0 v0 :=
            fun n0 v0 hg => hG2 n0 v0 (hG1 n0 v0 hg)
          cases r2 with
          | error e =>
            exact ⟨hwf2, hmono1.trans hmono2, fun val hval => absurd hval (by simp), hGc⟩
          | ok y =>
            cases y with
            | dict xs =>
              refine ⟨hwf2, hmono1.trans hmono2, ?_, hGc⟩
              intro val hval
              have : RTV.dict ((dk, x) :: xs) = val := by simpa using hval
              subst this
              have hx : idsBelowB x s2.nextId = true :=
                idsBelow_mono x s1.nextId s2.nextId hmono2 (hR1 x rfl)
              have hxs : idsBelowB (RTV.dict xs) s2.nextId = true := hR2 _ rfl
              show idsBelowDB ((dk, x) :: xs) s2.nextId = true
              simp only [idsBelowDB, Bool.and_eq_true]
              exact ⟨hx, hxs⟩
            | prim p =>
              exact ⟨hwf2, hmono1.trans hmono2, fun val hval => absurd hval (by simp), hGc⟩
            | obj k =>
              exact ⟨hwf2, hmono1.trans hmono2, fun val hval => absurd hval (by simp), hGc⟩
            | tup xs =>
              exact ⟨hwf2, hmono1.trans hmono2, fun val hval => absurd hval (by simp), hGc⟩
            | list xs =>
              exact ⟨hwf2, hmono1.trans hmono2, fun val hval => absurd hval (by simp), hGc⟩
    | fmt segs ctx =>
      cases segs with
      | nil =>
        refine ⟨hwf, le_refl _, ?_, fun n0 v0 hg => hg⟩
        intro val hval
        have : RTV.prim (.pstr "") = val := by simpa [run] using hval
        subst this
        rfl
      | cons sg rest =>
        cases sg with
        | lit ch =>
          simp only [run]
          rcases hr : run env f (.fmt rest ctx) s with ⟨r, s1⟩
          have ihm := ih (.fmt rest ctx) s hwf trivial
          rw [hr] at ihm
          obtain ⟨hwf1, hmono1, hR1, hG1⟩ := ihm
          cases r with
          | error e =>
            exact ⟨hwf1, hmono1, fun val hval => absurd hval (by simp), hG1⟩
          | ok y =>
            cases y with
            | prim p =>
              cases p with
              | pstr t =>
                refine ⟨hwf1, hmono1, ?_, hG1⟩
                intro val hval
                have : RTV.prim (.pstr ⟨ch :: t.data⟩) = val := by simpa using hval
                subst this
                rfl
              | pint m => exact ⟨hwf1, hmono1, fun val hval => absurd hval (by simp), hG1⟩
              | pbool b => exact ⟨hwf1, hmono1, fun val hval => absurd hval (by simp), hG1⟩
              | pnone => exact ⟨hwf1, hmono1, fun val hval => absurd hval (by simp), hG1⟩
            | obj k => exact ⟨hwf1, hmono1, fun val hval => absurd hval (by simp), hG1⟩
            | list xs => exact ⟨hwf1, hmono1, fun val hval => absurd hval (by simp), hG1⟩
            | tup xs => exact ⟨hwf1, hmono1, fun val hval => absurd hval (by simp), hG1⟩
            | dict xs => exact ⟨hwf1, hmono1, fun val hval => absurd hval (by simp), hG1⟩
        | ph name =>
          simp only [run]
          split
          · exact master_err hwf
          · rcases hr : run env f (.acc name) s with ⟨r, s1⟩
            have ihm := ih (.acc name) s hwf trivial
            rw [hr] at ihm
            obtain ⟨hwf1, hmono1, hR1, hG1⟩ := ihm
            cases r with
            | error e =>
              exact ⟨hwf1, hmono1, fun val hval => absurd hval (by simp), hG1⟩
            | ok v =>
              dsimp only
              rcases hr2 : run env f (.fmt rest ctx) s1 with ⟨r2, s2⟩
              have ihm2 := ih (.fmt rest ctx) s1 hwf1 trivial
              rw [hr2] at ihm2
              obtain ⟨hwf2, hmono2, hR2, hG2⟩ := ihm2
              have hGc : ∀ n0 v0, Good s n0 v0 → Good s2 n0 v0 :=
                fun n0 v0 hg => hG2 n0 v0 (hG1 n0 v0 hg)
              cases r2 with
              | error e =>
                exact ⟨hwf2, hmono1.trans hmono2, fun val hval => absurd hval (by simp), hGc⟩
              | ok y =>
                cases y with
                | prim p =>
                  cases p with
                  | pstr t =>
                    refine ⟨hwf2, hmono1.trans hmono2, ?_, hGc⟩
                    intro val hval
                    have : RTV.prim (.pstr (strOf v ++ t)) = val := by simpa using hval
                    subst this
                    rfl
                  | pint m =>
                    exact ⟨hwf2, hmono1.trans hmono2, fun val hval => absurd hval (by simp), hGc⟩
                  | pbool b =>
                    exact ⟨hwf2, hmono1.trans hmono2, fun val hval => absurd hval (by simp), hGc⟩
                  | pnone =>
                    exact ⟨hwf2, hmono1.trans hmono2, fun val hval => absurd hval (by simp), hGc⟩
                | obj k =>
                  exact ⟨hwf2, hmono1.trans hmono2, fun val hval => absurd hval (by simp), hGc⟩
                | list xs =>
                  exact ⟨hwf2, hmono1.trans hmono2, fun val hval => absurd hval (by simp), hGc⟩
                | tup xs =>
                  exact ⟨hwf2, hmono1.trans hmono2, fun val hval => absurd hval (by simp), hGc⟩
                | dict xs =>
                  exact ⟨hwf2, hmono1.trans hmono2, fun val hval => absurd hval (by simp), hGc⟩

end Apywire

namespace Apywire

/- ------------------------------------------------------------------
Claim C9: a finalized cache entry is never replaced or removed.
------------------------------------------------------------------- -/

/-- Claim C9.  Once the values cache holds a finalized (non-partial)
value `v` for `n`, no subsequent accessor invocation (for any name `m`)
replaces or removes it, and it stays non-partial; and
`_cleanup_skeleton` deletes `values[n]` only when the cached object is
identity-equal to the failing skeleton — never when it is some other
(finalized) value. -/
theorem c9_finalized_value_stable (env : Env) (f : Nat) (m n : String) (v : RTV) (s : St)
    (hwf : WF s) (hl : alookup s.values n = some v) (hfin : isPartialV s v = false) :
    alookup ((run env f (.acc m) s).2).values n = some v
    ∧ isPartialV ((run env f (.acc m) s).2) v = false
    ∧ (∀ (k : Nat) (exc : Exc), v ≠ RTV.obj k →
        alookup (cleanup_skeleton s n k exc).values n = some v) := by
  have hm := (run_master env f (.acc m) s hwf trivial).2.2.2 n v ⟨hl, hfin⟩
  refine ⟨hm.1, hm.2, ?_⟩
  intro k exc hne
  have h1 : alookup (finalize_skeleton s k (some exc)).values n = some v := hl
  unfold cleanup_skeleton
  rw [h1]
  cases v with
  | obj k2 =>
    dsimp only
    by_cases hk : k2 = k
    · exact absurd (by rw [hk]) hne
    · rw [if_neg hk]
      exact h1
  | prim p => exact h1
  | list xs => exact h1
  | tup xs => exact h1
  | dict xs => exact h1

/-- Claim C9, witness: a container whose cache holds the finalized
object `obj 0` under `"d"`; an accessor call for `"d"` leaves the entry
in place, and cleanup of an unrelated skeleton `obj 1` does not delete
it. -/
theorem c9_finalized_value_stable_witness :
    WF ⟨[("d", RTV.obj 0)], [], [], 1, []⟩
    ∧ alookup ((run ⟨[], false, fun _ => false, fun _ => false⟩ 5 (.acc "d")
        ⟨[("d", RTV.obj 0)], [], [], 1, []⟩).2).values "d" = some (RTV.obj 0)
    ∧ alookup (cleanup_skeleton ⟨[("d", RTV.obj 0)], [], [], 1, []⟩ "d" 1
        Exc.blocked).values "d" = some (RTV.obj 0) := by
  have hwf : WF ⟨[("d", RTV.obj 0)], [], [], 1, []⟩ := by
    refine ⟨?_, ?_, ?_⟩ <;> intro p hp <;> simp at hp <;> simp [hp, idsBelowB]
  have hc := c9_finalized_value_stable ⟨[], false, fun _ => false, fun _ => false⟩
    5 "d" "d" (RTV.obj 0) ⟨[("d", RTV.obj 0)], [], [], 1, []⟩ hwf rfl rfl
  exact ⟨hwf, hc.1, hc.2.2 1 Exc.blocked (by intro h; cases h)⟩

/- ------------------------------------------------------------------
Claim C1: identity memoization of accessors.
------------------------------------------------------------------- -/

/-- A successful result of the template-interpolation loop is always a
string primitive. -/
theorem fmt_ok_shape (env : Env) (f : Nat) (segs : List Seg) (ctx : String)
    (s : St) (v : RTV) (s2 : St)
    (h : run env f (.fmt segs ctx) s = (Except.ok v, s2)) :
    ∃ t : String, v = RTV.prim (.pstr t) := by
  cases f with
  | zero => simp [run] at h
  | succ f =>
    simp only [run] at h
    cases segs with
    | nil =>
      simp only [Prod.mk.injEq] at h
      exact ⟨"", (Except.ok.inj h.1).symm⟩
    | cons sg rest =>
      cases sg with
      | lit ch =>
        dsimp only at h
        repeat' split at h
        all_goals simp only [Prod.mk.injEq] at h
        all_goals first
          | exact Except.noConfusion h.1
          | exact ⟨_, (Except.ok.inj h.1).symm⟩
      | ph name =>
        dsimp only at h
        repeat' split at h
        all_goals simp only [Prod.mk.injEq] at h
        all_goals first
          | exact Except.noConfusion h.1
          | exact ⟨_, (Except.ok.inj h.1).symm⟩

/-- A successful skeleton-binding returns the skeleton itself, with the
skeleton finalized. -/
theorem bind_ok_shape (env : Env) (s : St) (n : String) (pe : PEntry) (k : Nat)
    (val : RTV) (h : (bindSkeleton env s n pe k).1 = Except.ok val) :
    val = RTV.obj k
    ∧ (bindSkeleton env s n pe k).2 = finalize_skeleton (cbump s n) k none := by
  by_cases hf : pe.factory_method.isSome = true <;>
    by_cases hcf : env.ctorFails n = true <;>
      by_cases hok2 : env.factoryOk n = true <;>
        simp only [bindSkeleton, hf, hcf, hok2, Bool.false_eq_true, if_true, if_false,
          ite_true, ite_false, ite_self] at h ⊢ <;>
          first
            | exact Except.noConfusion h
            | exact ⟨(Except.ok.inj h).symm, trivial⟩

/-- Replay of an accessor call on a state whose cache holds a finalized
value: the fast path returns it without touching the state. -/
theorem acc_replay (env : Env) (g : Nat) (n : String) (s1 : St) (v : RTV)
    (h1 : alookup s1.values n = some v) (h2 : isPartialV s1 v = false) :
    run env (g + 1) (.acc n) s1 = (Except.ok v, s1) := by
  simp only [run, h1, Option.isSome_some, true_or, if_true]
  simp [fastPathOn, h2]

/-- In a well-formed state, a cache hit whose partial flag is up has an
unset event (the finalizers clear the flag before signalling). -/
theorem WF_pmark_event {s : St} (hwf : WF s) {k : Nat}
    (h : (attrsGet s.attrs k).pmark = true) : (attrsGet s.attrs k).event = false :=
  hwf.2.2 (k, attrsGet s.attrs k) (attrsGet_pmark_mem h) h

end Apywire

namespace Apywire

/-- Claim C1.  Identity memoization: a successful top-level accessor
invocation for `n` (from a well-formed state in which `n` is not
already being resolved) publishes the returned instance, finalized,
into the values cache, and every later invocation of the accessor
returns the identity-same object and leaves the container state —
including the ghost constructor-invocation counts — completely
unchanged, so the constructor for `n` is never invoked again. -/
theorem c1_identity_memoization (env : Env) (f : Nat) (n : String) (s : St)
    (v : RTV) (s1 : St) (hwf : WF s) (hstk : n ∉ s.stack)
    (h : run env f (.acc n) s = (Except.ok v, s1)) :
    alookup s1.values n = some v
    ∧ isPartialV s1 v = false
    ∧ (∀ g : Nat, run env (g + 1) (.acc n) s1 = (Except.ok v, s1)) := by
  suffices hh : alookup s1.values n = some v ∧ isPartialV s1 v = false by
    exact ⟨hh.1, hh.2, fun g => acc_replay env g n s1 v hh.1 hh.2⟩
  cases f with
  | zero => simp [run] at h
  | succ f =>
    simp only [run] at h
    split at h
    · cases hv : alookup s.values n with
      | some v0 =>
        rw [hv] at h
        dsimp only at h
        unfold fastPathOn at h
        by_cases hpm : isPartialV s v0 = true
        · exfalso
          rw [if_pos hpm] at h
          cases v0 with
          | obj k =>
            have hev : (attrsGet s.attrs k).event = false :=
              WF_pmark_event hwf (by simpa [isPartialV] using hpm)
            have : (attrsV s (RTV.obj k)).event = false := hev
            rw [if_neg (by rw [this]; exact Bool.false_ne_true)] at h
            simp at h
          | prim p => simp [isPartialV] at hpm
          | list xs => simp [isPartialV] at hpm
          | tup xs => simp [isPartialV] at hpm
          | dict xs => simp [isPartialV] at hpm
        · have hpm2 : isPartialV s v0 = false := by simpa using hpm
          rw [if_neg (by rw [hpm2]; exact Bool.false_ne_true)] at h
          simp only [Prod.mk.injEq] at h
          obtain ⟨h1, h2⟩ := h
          have hv0 : v0 = v := Except.ok.inj h1
          subst hv0
          subst h2
          exact ⟨hv, hpm2⟩
      | none =>
        rw [hv] at h
        dsimp only at h
        -- the `_instantiate_attr` path
        cases f with
        | zero => simp [run] at h
        | succ f2 =>
          simp only [run] at h
          rw [hv] at h
          dsimp only at h
          rcases hr : run env f2 (.impl n) s with ⟨r, s2⟩
          rw [hr] at h
          cases r with
          | error e => simp at h
          | ok val =>
            dsimp only at h
            simp only [Prod.mk.injEq] at h
            obtain ⟨h1, h2⟩ := h
            have hval : val = v := Except.ok.inj h1
            subst hval
            subst h2
            refine ⟨alookup_vset_self _ _ _, ?_⟩
            show isPartialV s2 val = false
            -- analyze the `_instantiate_impl` call
            cases f2 with
            | zero => simp [run] at hr
            | succ f3 =>
              simp only [run] at hr
              rw [if_neg hstk] at hr
              rcases hb : run env f3 (.implBody n) { s with stack := s.stack ++ [n] }
                with ⟨rb, s3⟩
              rw [hb] at hr
              simp only [Prod.mk.injEq] at hr
              obtain ⟨hr1, hr2⟩ := hr
              subst hr1
              have hs2 : s2 = { s3 with stack := s3.stack.dropLast } := hr2.symm
              subst hs2
              show isPartialV s3 val = false
              -- analyze the body
              cases f3 with
              | zero => simp [run] at hb
              | succ f4 =>
                have normCase : ∀ s4 : St, WF s4 →
                    normalCtor env s4 n = (Except.ok val, s3) →
                    isPartialV s3 val = false := by
                  intro s4 hwf4 hnc
                  unfold normalCtor at hnc
                  by_cases hcf : env.ctorFails n = true
                  · rw [if_pos hcf] at hnc
                    simp at hnc
                  · rw [if_neg hcf] at hnc
                    simp only [Prod.mk.injEq] at hnc
                    obtain ⟨hn1, hn2⟩ := hnc
                    have hvv : RTV.obj s4.nextId = val := Except.ok.inj hn1
                    subst hvv
                    rw [← hn2]
                    show (attrsGet s4.attrs s4.nextId).pmark = false
                    rw [attrsGet_default_of_ge hwf4.1 (le_refl _)]
                    rfl
                simp only [run] at hb
                have hv2 : alookup ({ s with stack := s.stack ++ [n] } : St).values n = none := hv
                rw [hv2] at hb
                dsimp only at hb
                cases hp : alookup env.parsed n with
                | none => rw [hp] at hb; simp at hb
                | some pe =>
                  rw [hp] at hb
                  dsimp only at hb
                  by_cases hsyn : pe.isSynthetic = true
                  · rw [if_pos hsyn] at hb
                    cases hd : pe.data with
                    | prim p =>
                      cases p with
                      | pstr t =>
                        rw [hd] at hb
                        dsimp only at hb
                        rcases hfm : run env f4 (.fmt (splitPH t.data) n)
                          { s with stack := s.stack ++ [n] } with ⟨rf, s4⟩
                        rw [hfm] at hb
                        cases rf with
                        | error e => simp at hb
                        | ok vf =>
                          dsimp only at hb
                          simp only [Prod.mk.injEq] at hb
                          obtain ⟨hb1, hb2⟩ := hb
                          have hvf : vf = val := Except.ok.inj hb1
                          subst hvf
                          obtain ⟨t2, ht2⟩ := fmt_ok_shape env f4 _ n _ vf s4 hfm
                          subst ht2
                          rw [← hb2]
                          rfl
                      | pint m => rw [hd] at hb; simp at hb
                      | pbool b => rw [hd] at hb; simp at hb
                      | pnone => rw [hd] at hb; simp at hb
                    | ref name => rw [hd] at hb; simp at hb
                    | list xs => rw [hd] at hb; simp at hb
                    | tup xs => rw [hd] at hb; simp at hb
                    | dict items => rw [hd] at hb; simp at hb
                  · rw [if_neg hsyn] at hb
                    rcases hres : run env f4 (.res pe.data n)
                      { s with stack := s.stack ++ [n] } with ⟨rr, s4⟩
                    rw [hres] at hb
                    cases rr with
                    | error e => simp at hb
                    | ok kw =>
                      dsimp only at hb
                      have hwfp : WF ({ s with stack := s.stack ++ [n] } : St) := hwf
                      have hm := run_master env f4 (.res pe.data n)
                        { s with stack := s.stack ++ [n] } hwfp trivial
                      rw [hres] at hm
                      have hwf4 : WF s4 := hm.1
                      cases hc : alookup s4.values n with
                      | some cv =>
                        rw [hc] at hb
                        cases cv with
                        | obj k =>
                          dsimp only at hb
                          by_cases hpk : (attrsGet s4.attrs k).pmark = true
                          · rw [if_pos hpk] at hb
                            obtain ⟨hvk, hst⟩ := bind_ok_shape env s4 n pe k val
                              (by rw [hb])
                            rw [hb] at hst
                            have hs3 : s3 = finalize_skeleton (cbump s4 n) k none := hst
                            subst hvk
                            rw [hs3]
                            show (attrsGet (attrsSet (cbump s4 n).attrs k
                              ⟨false, true, _⟩) k).pmark = false
                            rw [attrsGet_set_self]
                          · rw [if_neg hpk] at hb
                            exact normCase s4 hwf4 hb
                        | prim p => exact normCase s4 hwf4 (by dsimp only at hb; exact hb)
                        | list xs => exact normCase s4 hwf4 (by dsimp only at hb; exact hb)
                        | tup xs => exact normCase s4 hwf4 (by dsimp only at hb; exact hb)
                        | dict xs => exact normCase s4 hwf4 (by dsimp only at hb; exact hb)
                      | none =>
                        rw [hc] at hb
                        exact normCase s4 hwf4 (by dsimp only at hb; exact hb)
    · simp at h

end Apywire

namespace Apywire

/-- Claim C1, witness: a one-entry container (`m.Date d` with empty
data).  The first accessor call constructs `obj 0`, publishes it, and
counts one constructor invocation; the replay conclusion of the claim
theorem then gives that a later call returns the identity-same object
with the state (constructor count included) unchanged. -/
theorem c1_identity_memoization_witness :
    run ⟨[("d", ⟨"m", "Date", none, RV.dict []⟩)], false, fun _ => false, fun _ => false⟩
      10 (.acc "d") ⟨[], [], [], 0, []⟩
      = (Except.ok (RTV.obj 0), ⟨[("d", RTV.obj 0)], [], [], 1, [("d", 1)]⟩)
    ∧ run ⟨[("d", ⟨"m", "Date", none, RV.dict []⟩)], false, fun _ => false, fun _ => false⟩
      (4 + 1) (.acc "d") ⟨[("d", RTV.obj 0)], [], [], 1, [("d", 1)]⟩
      = (Except.ok (RTV.obj 0), ⟨[("d", RTV.obj 0)], [], [], 1, [("d", 1)]⟩) := by
  have hrun : run ⟨[("d", ⟨"m", "Date", none, RV.dict []⟩)], false, fun _ => false, fun _ => false⟩
      10 (.acc "d") ⟨[], [], [], 0, []⟩
      = (Except.ok (RTV.obj 0), ⟨[("d", RTV.obj 0)], [], [], 1, [("d", 1)]⟩) := by
    rfl
  have hwf : WF ⟨[], [], [], 0, []⟩ := by
    refine ⟨?_, ?_, ?_⟩ <;> intro p hp <;> simp at hp
  have hc := c1_identity_memoization
    ⟨[("d", ⟨"m", "Date", none, RV.dict []⟩)], false, fun _ => false, fun _ => false⟩
    10 "d" ⟨[], [], [], 0, []⟩ (RTV.obj 0)
    ⟨[("d", RTV.obj 0)], [], [], 1, [("d", 1)]⟩ hwf (by simp) hrun
  exact ⟨hrun, hc.2.2 4⟩

end Apywire

namespace Apywire

/- ------------------------------------------------------------------
Claim C8: factory returning a different instance than the skeleton.
------------------------------------------------------------------- -/

/-- Marker attributes after cleanup equal those set by the finalizer
(the conditional deletion touches only the values cache). -/
theorem attrs_cleanup (s : St) (n : String) (k : Nat) (e : Exc) :
    (cleanup_skeleton s n k e).attrs = (finalize_skeleton s k (some e)).attrs := by
  unfold cleanup_skeleton
  repeat' split
  all_goals rfl

/-- Claim C8.  Under `allow_partial`, when a partial skeleton `obj k`
has been published in the values cache for `n` and the entry's factory
— invoked with `cls.__new__` redirected to return the skeleton —
returns an object that is not identity-equal to the skeleton, the build
raises `PartialConstructionError`; before the error surfaces, the
failure is recorded on the skeleton, its partial flag is cleared, its
event is signalled, and the skeleton is removed from the values cache,
so a waiter woken by the event raises the recorded failure. -/
theorem c8_factory_mismatch (env : Env) (s : St) (n : String) (pe : PEntry)
    (k : Nat) (fm : String)
    (hfac : pe.factory_method = some fm)
    (hcf : env.ctorFails n = false) (hfo : env.factoryOk n = false)
    (hcache : alookup s.values n = some (RTV.obj k)) :
    (bindSkeleton env s n pe k).1
      = Except.error (Exc.pc ("factory for '" ++ n
          ++ "' returned a different instance than the skeleton"))
    ∧ attrsGet ((bindSkeleton env s n pe k).2).attrs k
        = ⟨false, true, some (Exc.pc ("factory for '" ++ n
            ++ "' returned a different instance than the skeleton"))⟩
    ∧ alookup ((bindSkeleton env s n pe k).2).values n = none
    ∧ waiterResume ((bindSkeleton env s n pe k).2) (RTV.obj k)
        = Except.error (Exc.pc ("factory for '" ++ n
            ++ "' returned a different instance than the skeleton")) := by
  have hsome : pe.factory_method.isSome = true := by rw [hfac]; rfl
  have hbind : bindSkeleton env s n pe k
      = (Except.error (Exc.pc ("factory for '" ++ n
          ++ "' returned a different instance than the skeleton")),
        cleanup_skeleton (cbump s n) n k
          (Exc.pc ("factory for '" ++ n
            ++ "' returned a different instance than the skeleton"))) := by
    unfold bindSkeleton
    rw [if_pos hsome, if_neg (by rw [hcf]; exact Bool.false_ne_true),
      if_neg (by rw [hfo]; exact Bool.false_ne_true)]
  rw [hbind]
  have hattrs : attrsGet (cleanup_skeleton (cbump s n) n k
      (Exc.pc ("factory for '" ++ n
        ++ "' returned a different instance than the skeleton"))).attrs k
      = ⟨false, true, some (Exc.pc ("factory for '" ++ n
          ++ "' returned a different instance than the skeleton"))⟩ := by
    rw [attrs_cleanup]
    exact attrsGet_set_self _ _ _
  refine ⟨rfl, hattrs, ?_, ?_⟩
  · -- the skeleton is removed from the cache
    show alookup (cleanup_skeleton (cbump s n) n k _).values n = none
    unfold cleanup_skeleton
    have h1 : alookup (finalize_skeleton (cbump s n) k
        (some (Exc.pc ("factory for '" ++ n
          ++ "' returned a different instance than the skeleton")))).values n
        = some (RTV.obj k) := hcache
    rw [h1]
    dsimp only
    rw [if_pos rfl]
    exact alookup_vdel_self _ _
  · show waiterResume _ (RTV.obj k) = _
    unfold waiterResume
    show (match (attrsV _ (RTV.obj k)).failure with
      | some e => Except.error e
      | none => Except.ok (RTV.obj k)) = _
    have : attrsV (cleanup_skeleton (cbump s n) n k
        (Exc.pc ("factory for '" ++ n
          ++ "' returned a different instance than the skeleton"))) (RTV.obj k)
        = ⟨false, true, some (Exc.pc ("factory for '" ++ n
            ++ "' returned a different instance than the skeleton"))⟩ := hattrs
    rw [this]

/-- Claim C8, witness: a container in mid-cycle state — the skeleton
`obj 0` for `a` is cached and partial — whose factory for `a`
misbehaves (returns a fresh object): the bind raises
`PartialConstructionError`, records it on the skeleton, signals the
event, and removes the cache entry. -/
theorem c8_factory_mismatch_witness :
    (bindSkeleton ⟨[], true, fun _ => false, fun _ => false⟩
      ⟨[("a", RTV.obj 0)], ["a"], [(0, ⟨true, false, none⟩)], 1, []⟩
      "a" ⟨"m", "A", some "make", RV.dict []⟩ 0).1
      = Except.error (Exc.pc ("factory for '" ++ "a"
          ++ "' returned a different instance than the skeleton"))
    ∧ alookup ((bindSkeleton ⟨[], true, fun _ => false, fun _ => false⟩
        ⟨[("a", RTV.obj 0)], ["a"], [(0, ⟨true, false, none⟩)], 1, []⟩
        "a" ⟨"m", "A", some "make", RV.dict []⟩ 0).2).values "a" = none := by
  have hc := c8_factory_mismatch ⟨[], true, fun _ => false, fun _ => false⟩
    ⟨[("a", RTV.obj 0)], ["a"], [(0, ⟨true, false, none⟩)], 1, []⟩
    "a" ⟨"m", "A", some "make", RV.dict []⟩ 0 "make" rfl rfl rfl rfl
  exact ⟨hc.1, hc.2.2.1⟩

end Apywire

namespace Apywire

/- ------------------------------------------------------------------
Construction (`Wiring.__init__`) and reference scanning, for claim C4.
------------------------------------------------------------------- -/

mutual

/-- A constant spec value as stored verbatim in the runtime cache
(`self._values = dict(consts)` in `Wiring.__init__`): no placeholder
processing takes place. -/
def svToRTV : SV → RTV
  | .prim p => .prim p
  | .list xs => .list (svToRTVL xs)
  | .tup xs => .tup (svToRTVL xs)
  | .dict items => .dict (svToRTVD items)

/-- List part of `svToRTV`. -/
def svToRTVL : List SV → List RTV
  | [] => []
  | x :: xs => svToRTV x :: svToRTVL xs

/-- Mapping part of `svToRTV`. -/
def svToRTVD : List (DKey × SV) → List (DKey × RTV)
  | [] => []
  | kv :: items => (kv.1, svToRTV kv.2) :: svToRTVD items

end

/-- First pass of `Wiring.__init__` (wiring.py lines 140-147): classify
each entry as wired (key parses) or constant, stopping at the first
malformed key.  Wired entries are collected as
`(name, module, class, raw value)`. -/
def classifyEntries :
    List (String × SV) →
    Except String (List (String × String × String × SV) × List (String × SV))
  | [] => .ok ([], [])
  | (key, v) :: rest =>
    match parse_spec_entry key with
    | .error e => .error e
    | .ok none =>
      match classifyEntries rest with
      | .error e => .error e
      | .ok (ps, cs) => .ok (ps, (key, v) :: cs)
    | .ok (some (m, c, nm)) =>
      match classifyEntries rest with
      | .error e => .error e
      | .ok (ps, cs) => .ok ((nm, m, c, v) :: ps, cs)

/-- Embedding of `Wiring.__init__` (wiring.py lines 115-168): classify
the spec, store the constants verbatim in the values cache, and build
the parsed map with placeholder-resolved data (`_resolve`).  The `Wiring`
class has no factory-method parsing, so every parsed entry carries
`factory_method = none`.  No reference is validated here. -/
def wiringInit (spec : List (String × SV)) :
    Except String (List (String × PEntry) × List (String × RTV)) :=
  match classifyEntries spec with
  | .error e => .error e
  | .ok (ps, cs) =>
    .ok (ps.map (fun q => (q.1, ⟨q.2.1, q.2.2.1, none, resolveSpec q.2.2.2⟩)),
         cs.map (fun kv => (kv.1, svToRTV kv.2)))

mutual

/-- The placeholder names referenced by a resolved value, in the order
`_resolve_runtime` encounters them. -/
def refsOf : RV → List String
  | .prim _ => []
  | .ref r => [r]
  | .list xs => refsOfL xs
  | .tup xs => refsOfL xs
  | .dict items => refsOfD items

/-- List part of `refsOf`. -/
def refsOfL : List RV → List String
  | [] => []
  | x :: xs => refsOf x ++ refsOfL xs

/-- Mapping part of `refsOf`. -/
def refsOfD : List (DKey × RV) → List String
  | [] => []
  | kv :: items => refsOf kv.2 ++ refsOfD items

end

mutual

/-- Fuel needed by `_resolve_runtime` on a value tree (one unit per
interpreter call, with an extra unit for the tuple repacking). -/
def rvSize : RV → Nat
  | .prim _ => 1
  | .ref _ => 1
  | .list xs => 1 + rvSizeL xs
  | .tup xs => 2 + rvSizeL xs
  | .dict items => 1 + rvSizeD items

/-- List part of `rvSize`. -/
def rvSizeL : List RV → Nat
  | [] => 1
  | x :: xs => 1 + rvSize x + rvSizeL xs

/-- Mapping part of `rvSize`. -/
def rvSizeD : List (DKey × RV) → Nat
  | [] => 1
  | kv :: items => 1 + rvSize kv.2 + rvSizeD items

end

mutual

/-- Value of a reference-free resolved tree (what `_resolve_runtime`
returns when no `_WiredRef` occurs in it). -/
def pureEval : RV → RTV
  | .prim p => .prim p
  | .ref _ => .prim .pnone
  | .list xs => .list (pureEvalL xs)
  | .tup xs => .tup (pureEvalL xs)
  | .dict items => .dict (pureEvalD items)

/-- List part of `pureEval`. -/
def pureEvalL : List RV → List RTV
  | [] => []
  | x :: xs => pureEval x :: pureEvalL xs

/-- Mapping part of `pureEval`. -/
def pureEvalD : List (DKey × RV) → List (DKey × RTV)
  | [] => []
  | kv :: items => (kv.1, pureEval kv.2) :: pureEvalD items

end

theorem headq_append_left {α : Type} {a b : List α} (h : a ≠ []) :
    (a ++ b).head? = a.head? := by
  cases a with
  | nil => exact absurd rfl h
  | cons x xs => rfl

theorem headq_none_nil {α : Type} {a : List α} (h : a.head? = none) : a = [] := by
  cases a with
  | nil => rfl
  | cons x xs => exact Option.noConfusion h

end Apywire

namespace Apywire

mutual

/-- Resolution of a reference-free value tree returns its evaluation
and leaves the state untouched. -/
theorem resPure (env : Env) : ∀ (t : RV) (f : Nat) (s : St) (ctx : String),
    refsOf t = [] → rvSize t < f →
    run env f (.res t ctx) s = (.ok (pureEval t), s)
  | .prim p, f, s, ctx, _, hf => by
    cases f with
    | zero => simp [rvSize] at hf
    | succ f => rfl
  | .ref r, f, s, ctx, h, hf => absurd h (by simp [refsOf])
  | .list xs, f, s, ctx, h, hf => by
    cases f with
    | zero => simp [rvSize] at hf
    | succ f =>
      have hL := resPureL env xs f s ctx (by simpa [refsOf] using h)
        (by simp only [rvSize] at hf; omega)
      simp only [run]
      rw [hL]
      rfl
  | .tup xs, f, s, ctx, h, hf => by
    cases f with
    | zero => simp [rvSize] at hf
    | succ f =>
      cases f with
      | zero => simp only [rvSize] at hf; omega
      | succ f2 =>
        have hL := resPureL env xs f2 s ctx (by simpa [refsOf] using h)
          (by simp only [rvSize] at hf; omega)
        simp only [run]
        rw [hL]
        rfl
  | .dict items, f, s, ctx, h, hf => by
    cases f with
    | zero => simp [rvSize] at hf
    | succ f =>
      have hD := resPureD env items f s ctx (by simpa [refsOf] using h)
        (by simp only [rvSize] at hf; omega)
      simp only [run]
      rw [hD]
      rfl

/-- List part of `resPure`. -/
theorem resPureL (env : Env) : ∀ (xs : List RV) (f : Nat) (s : St) (ctx : String),
    refsOfL xs = [] → rvSizeL xs < f →
    run env f (.resL xs ctx) s = (.ok (.list (pureEvalL xs)), s)
  | [], f, s, ctx, _, hf => by
    cases f with
    | zero => simp [rvSizeL] at hf
    | succ f => rfl
  | x :: xs, f, s, ctx, h, hf => by
    cases f with
    | zero => simp [rvSizeL] at hf
    | succ f =>
      have hsplit : refsOf x = [] ∧ refsOfL xs = [] := by
        simpa [refsOfL, List.append_eq_nil] using h
      have h1 := resPure env x f s ctx hsplit.1
        (by simp only [rvSizeL] at hf; omega)
      have h2 := resPureL env xs f s ctx hsplit.2
        (by simp only [rvSizeL] at hf; omega)
      simp only [run]
      rw [h1]
      dsimp only
      rw [h2]
      rfl

/-- Mapping part of `resPure`. -/
theorem resPureD (env : Env) : ∀ (items : List (DKey × RV)) (f : Nat) (s : St) (ctx : String),
    refsOfD items = [] → rvSizeD items < f →
    run env f (.resD items ctx) s = (.ok (.dict (pureEvalD items)), s)
  | [], f, s, ctx, _, hf => by
    cases f with
    | zero => simp [rvSizeD] at hf
    | succ f => rfl
  | (dk, x) :: items, f, s, ctx, h, hf => by
    cases f with
    | zero => simp [rvSizeD] at hf
    | succ f =>
      have hsplit : refsOf x = [] ∧ refsOfD items = [] := by
        simpa [refsOfD, List.append_eq_nil] using h
      have h1 := resPure env x f s ctx hsplit.1
        (by simp only [rvSizeD] at hf; omega)
      have h2 := resPureD env items f s ctx hsplit.2
        (by simp only [rvSizeD] at hf; omega)
      simp only [run]
      rw [h1]
      dsimp only
      rw [h2]
      rfl

end

end Apywire

namespace Apywire

mutual

/-- Resolution of a tree whose references are all undeclared raises
`UnknownPlaceholderError` for the first reference encountered, before
any accessor is invoked, leaving the state untouched. -/
theorem resErr (env : Env) : ∀ (t : RV) (f : Nat) (s : St) (ctx r : String),
    (∀ r2 ∈ refsOf t, alookup s.values r2 = none ∧ alookup env.parsed r2 = none) →
    (refsOf t).head? = some r → rvSize t < f →
    run env f (.res t ctx) s = (.error (.up r (some ctx)), s)
  | .prim p, f, s, ctx, r, _, hh, _ => Option.noConfusion hh
  | .ref r2, f, s, ctx, r, hund, hh, hf => by
    cases f with
    | zero => simp [rvSize] at hf
    | succ f =>
      have hr : r2 = r := by
        have : (refsOf (RV.ref r2)).head? = some r2 := rfl
        rw [hh] at this
        exact (Option.some.inj this).symm
      subst hr
      have h2 := hund r2 (by simp [refsOf])
      simp only [run]
      rw [if_pos ⟨by rw [h2.1]; rfl, by rw [h2.2]; rfl⟩]
  | .list xs, f, s, ctx, r, hund, hh, hf => by
    cases f with
    | zero => simp [rvSize] at hf
    | succ f =>
      have hL := resErrL env xs f s ctx r hund hh
        (by simp only [rvSize] at hf; omega)
      simp only [run]
      rw [hL]
  | .tup xs, f, s, ctx, r, hund, hh, hf => by
    cases f with
    | zero => simp [rvSize] at hf
    | succ f =>
      cases f with
      | zero => simp only [rvSize] at hf; omega
      | succ f2 =>
        have hL := resErrL env xs f2 s ctx r hund hh
          (by simp only [rvSize] at hf; omega)
        simp only [run]
        rw [hL]
  | .dict items, f, s, ctx, r, hund, hh, hf => by
    cases f with
    | zero => simp [rvSize] at hf
    | succ f =>
      have hD := resErrD env items f s ctx r hund hh
        (by simp only [rvSize] at hf; omega)
      simp only [run]
      rw [hD]

/-- List part of `resErr`. -/
theorem resErrL (env : Env) : ∀ (xs : List RV) (f : Nat) (s : St) (ctx r : String),
    (∀ r2 ∈ refsOfL xs, alookup s.values r2 = none ∧ alookup env.parsed r2 = none) →
    (refsOfL xs).head? = some r → rvSizeL xs < f →
    run env f (.resL xs ctx) s = (.error (.up r (some ctx)), s)
  | [], f, s, ctx, r, _, hh, _ => Option.noConfusion hh
  | x :: xs, f, s, ctx, r, hund, hh, hf => by
    cases f with
    | zero => simp [rvSizeL] at hf
    | succ f =>
      have hundx : ∀ r2 ∈ refsOf x, alookup s.values r2 = none ∧ alookup env.parsed r2 = none :=
        fun r2 hr2 => hund r2 (by simp [refsOfL, hr2])
      have hundxs : ∀ r2 ∈ refsOfL xs, alookup s.values r2 = none ∧ alookup env.parsed r2 = none :=
        fun r2 hr2 => hund r2 (by simp [refsOfL, hr2])
      cases hrx : (refsOf x).head? with
      | some rx =>
        have hr : rx = r := by
          have h3 : (refsOfL (x :: xs)).head? = some rx := by
            show (refsOf x ++ refsOfL xs).head? = some rx
            rw [headq_append_left (by intro h4; rw [h4] at hrx; exact Option.noConfusion hrx)]
            exact hrx
          rw [hh] at h3
          exact (Option.some.inj h3).symm
        subst hr
        have h1 := resErr env x f s ctx rx hundx hrx
          (by simp only [rvSizeL] at hf; omega)
        simp only [run]
        rw [h1]
      | none =>
        have hxnil : refsOf x = [] := headq_none_nil hrx
        have h1 := resPure env x f s ctx hxnil
          (by simp only [rvSizeL] at hf; omega)
        have hh2 : (refsOfL xs).head? = some r := by
          have : (refsOfL (x :: xs)).head? = (refsOfL xs).head? := by
            show (refsOf x ++ refsOfL xs).head? = _
            rw [hxnil]
            rfl
          rw [← this]
          exact hh
        have h2 := resErrL env xs f s ctx r hundxs hh2
          (by simp only [rvSizeL] at hf; omega)
        simp only [run]
        rw [h1]
        dsimp only
        rw [h2]

/-- Mapping part of `resErr`. -/
theorem resErrD (env : Env) : ∀ (items : List (DKey × RV)) (f : Nat) (s : St) (ctx r : String),
    (∀ r2 ∈ refsOfD items, alookup s.values r2 = none ∧ alookup env.parsed r2 = none) →
    (refsOfD items).head? = some r → rvSizeD items < f →
    run env f (.resD items ctx) s = (.error (.up r (some ctx)), s)
  | [], f, s, ctx, r, _, hh, _ => Option.noConfusion hh
  | (dk, x) :: items, f, s, ctx, r, hund, hh, hf => by
    cases f with
    | zero => simp [rvSizeD] at hf
    | succ f =>
      have hundx : ∀ r2 ∈ refsOf x, alookup s.values r2 = none ∧ alookup env.parsed r2 = none :=
        fun r2 hr2 => hund r2 (by simp [refsOfD, hr2])
      have hundxs : ∀ r2 ∈ refsOfD items, alookup s.values r2 = none ∧ alookup env.parsed r2 = none :=
        fun r2 hr2 => hund r2 (by simp [refsOfD, hr2])
      cases hrx : (refsOf x).head? with
      | some rx =>
        have hr : rx = r := by
          have h3 : (refsOfD ((dk, x) :: items)).head? = some rx := by
            show (refsOf x ++ refsOfD items).head? = some rx
            rw [headq_append_left (by intro h4; rw [h4] at hrx; exact Option.noConfusion hrx)]
            exact hrx
          rw [hh] at h3
          exact (Option.some.inj h3).symm
        subst hr
        have h1 := resErr env x f s ctx rx hundx hrx
          (by simp only [rvSizeD] at hf; omega)
        simp only [run]
        rw [h1]
      | none =>
        have hxnil : refsOf x = [] := headq_none_nil hrx
        have h1 := resPure env x f s ctx hxnil
          (by simp only [rvSizeD] at hf; omega)
        have hh2 : (refsOfD items).head? = some r := by
          have : (refsOfD ((dk, x) :: items)).head? = (refsOfD items).head? := by
            show (refsOf x ++ refsOfD items).head? = _
            rw [hxnil]
            rfl
          rw [← this]
          exact hh
        have h2 := resErrD env items f s ctx r hundxs hh2
          (by simp only [rvSizeD] at hf; omega)
        simp only [run]
        rw [h1]
        dsimp only
        rw [h2]

end

end Apywire

namespace Apywire

/-- Classification succeeds on any spec whose keys all parse. -/
theorem classify_ok : ∀ (spec : List (String × SV)),
    (∀ kv ∈ spec, ∃ x, parse_spec_entry kv.1 = Except.ok x) →
    ∃ pc, classifyEntries spec = Except.ok pc := by
  intro spec
  induction spec with
  | nil => intro _; exact ⟨([], []), rfl⟩
  | cons kv rest ih =>
    intro h
    obtain ⟨x, hx⟩ := h kv (List.mem_cons_self _ _)
    obtain ⟨pc, hpc⟩ := ih (fun q hq => h q (List.mem_cons_of_mem _ hq))
    rcases kv with ⟨key, v⟩
    rcases pc with ⟨ps, cs⟩
    cases x with
    | none =>
      refine ⟨(ps, (key, v) :: cs), ?_⟩
      simp only [classifyEntries, hx, hpc]
    | some mcn =>
      rcases mcn with ⟨m, c, nm⟩
      refine ⟨((nm, m, c, v) :: ps, cs), ?_⟩
      simp only [classifyEntries, hx, hpc]

/-- Claim C4.  For every spec whose keys are well-formed, container
construction succeeds without error even when wired entries hold
references to names declared nowhere; for a non-synthetic wired entry
`n` whose data references only undeclared names, the first build of `n`
raises `UnknownPlaceholderError` identifying the first missing name
encountered and naming `n` as context — the error surfaces at build
time, not construction time, and leaves the container state exactly as
it was. -/
theorem c4_unknown_placeholder_deferred
    (spec : List (String × SV))
    (hkeys : ∀ kv ∈ spec, ∃ x, parse_spec_entry kv.1 = Except.ok x) :
    (∃ pv, wiringInit spec = Except.ok pv)
    ∧ (∀ (parsedL : List (String × PEntry)) (vals : List (String × RTV)),
        wiringInit spec = Except.ok (parsedL, vals) →
        ∀ (allowP : Bool) (cf fo : String → Bool) (n : String) (pe : PEntry) (r : String),
          alookup parsedL n = some pe →
          pe.isSynthetic = false →
          alookup vals n = none →
          (∀ r2 ∈ refsOf pe.data,
            alookup vals r2 = none ∧ alookup parsedL r2 = none) →
          (refsOf pe.data).head? = some r →
          ∀ f : Nat, rvSize pe.data + 4 < f →
          run ⟨parsedL, allowP, cf, fo⟩ f (.acc n) ⟨vals, [], [], 0, []⟩
            = (Except.error (.up r (some n)), ⟨vals, [], [], 0, []⟩)) := by
  constructor
  · obtain ⟨⟨ps, cs⟩, hpc⟩ := classify_ok spec hkeys
    refine ⟨(ps.map (fun q => (q.1, ⟨q.2.1, q.2.2.1, none, resolveSpec q.2.2.2⟩)),
             cs.map (fun kv => (kv.1, svToRTV kv.2))), ?_⟩
    unfold wiringInit
    rw [hpc]
  · intro parsedL vals hinit allowP cf fo n pe r hpe hsyn hvals hund hh f hfb
    obtain ⟨g, rfl⟩ : ∃ g, f = g + 4 := ⟨f - 4, by omega⟩
    have herr := resErr ⟨parsedL, allowP, cf, fo⟩ pe.data g
      ⟨vals, [n], [], 0, []⟩ n r (fun r2 hr2 => hund r2 hr2) hh (by omega)
    have hbody : run ⟨parsedL, allowP, cf, fo⟩ (Nat.succ g) (.implBody n)
        ⟨vals, [n], [], 0, []⟩
        = (Except.error (.up r (some n)), ⟨vals, [n], [], 0, []⟩) := by
      simp only [run]
      rw [hvals, hpe]
      dsimp only
      rw [if_neg (by simp [hsyn]), herr]
    have himpl : ∀ g2, run ⟨parsedL, allowP, cf, fo⟩ g2 (.implBody n)
          ⟨vals, [n], [], 0, []⟩
          = (Except.error (.up r (some n)), ⟨vals, [n], [], 0, []⟩) →
        run ⟨parsedL, allowP, cf, fo⟩ (Nat.succ g2) (.impl n) ⟨vals, [], [], 0, []⟩
          = (Except.error (.up r (some n)), ⟨vals, [], [], 0, []⟩) := by
      intro g2 hb
      simp only [run]
      rw [if_neg (List.not_mem_nil n)]
      dsimp only [List.nil_append]
      rw [hb]
      rfl
    have hattr : ∀ g2, run ⟨parsedL, allowP, cf, fo⟩ g2 (.impl n)
          ⟨vals, [], [], 0, []⟩
          = (Except.error (.up r (some n)), ⟨vals, [], [], 0, []⟩) →
        run ⟨parsedL, allowP, cf, fo⟩ (Nat.succ g2) (.attr n) ⟨vals, [], [], 0, []⟩
          = (Except.error (.up r (some n)), ⟨vals, [], [], 0, []⟩) := by
      intro g2 hb
      simp only [run]
      rw [hvals]
      dsimp only
      rw [hb]
    have hacc : ∀ g2, run ⟨parsedL, allowP, cf, fo⟩ g2 (.attr n)
          ⟨vals, [], [], 0, []⟩
          = (Except.error (.up r (some n)), ⟨vals, [], [], 0, []⟩) →
        run ⟨parsedL, allowP, cf, fo⟩ (Nat.succ g2) (.acc n) ⟨vals, [], [], 0, []⟩
          = (Except.error (.up r (some n)), ⟨vals, [], [], 0, []⟩) := by
      intro g2 hb
      simp only [run]
      have hc : Option.isSome (alookup vals n) = true
          ∨ Option.isSome (alookup parsedL n) = true := Or.inr (by rw [hpe]; rfl)
      rw [if_pos hc]
      rw [hvals]
      dsimp only
      exact hb
    exact hacc (g + 3) (hattr (g + 2) (himpl (g + 1) (hbody)))

/-- Witness for C4 at the concrete spec
`\x7b"m.A a": \x7b"x": "\x7bmissing\x7d"\x7d\x7d`: construction succeeds, and
the first build of `a` raises `UnknownPlaceholderError("missing")` with
context `a`, leaving the state untouched. -/
theorem c4_unknown_placeholder_deferred_witness :
    (∃ pv, wiringInit
        [("m.A a", SV.dict [(DKey.sk "x", SV.prim (Prim.pstr "\x7bmissing\x7d"))])]
      = Except.ok pv)
    ∧ run ⟨[("a", ⟨"m", "A", none, RV.dict [(DKey.sk "x", RV.ref "missing")]⟩)],
           false, fun _ => false, fun _ => false⟩ 10 (.acc "a") ⟨[], [], [], 0, []⟩
        = (Except.error (.up "missing" (some "a")), ⟨[], [], [], 0, []⟩) := by
  have H := c4_unknown_placeholder_deferred
    [("m.A a", SV.dict [(DKey.sk "x", SV.prim (Prim.pstr "\x7bmissing\x7d"))])]
    (fun kv hkv => by
      simp only [List.mem_singleton] at hkv
      subst hkv
      exact ⟨some ("m", "A", "a"), rfl⟩)
  refine ⟨H.1, ?_⟩
  exact H.2 [("a", ⟨"m", "A", none, RV.dict [(DKey.sk "x", RV.ref "missing")]⟩)]
    [] rfl false (fun _ => false) (fun _ => false) "a"
    ⟨"m", "A", none, RV.dict [(DKey.sk "x", RV.ref "missing")]⟩ "missing"
    rfl rfl rfl
    (fun r2 hr2 => by
      have he : refsOf (RV.dict [(DKey.sk "x", RV.ref "missing")]) = ["missing"] := rfl
      rw [he, List.mem_singleton] at hr2
      subst hr2
      exact ⟨rfl, rfl⟩)
    rfl 10 (by decide)

-- ## Cycle detection (`exceptions.py` `CircularWiringError.from_unprocessed`
-- and the spec's dependency analyzer)

/-- Dependency graph: Python `dependencies: dict[str, set[str]]`, as an
association list from node to its dependency names. -/
def GraphT : Type := List (String × List String)

/-- `all_nodes = set(dependencies.keys())`. -/
def allNodes (deps : GraphT) : List String := deps.map (fun q => q.1)

/-- `dependencies.get(node, set())`. -/
def depsOf (deps : GraphT) (n : String) : List String :=
  (alookup deps n).getD []

/-- The DFS bookkeeping of `from_unprocessed`: `visited`, `stack`,
`on_stack` (sets modelled as lists with membership semantics). -/
structure DfsSt where
  visited : List String
  stack : List String
  onStack : List String

/-- Remove the first occurrence of an element (`set.remove` on a
duplicate-free list). -/
def removeOne : List String → String → List String
  | [], _ => []
  | x :: xs, a => if x = a then xs else x :: removeOne xs a

/-- Index of the first occurrence of an element (`list.index`). -/
def firstIdx : List String → String → Option Nat
  | [], _ => none
  | x :: xs, a => if x = a then some 0 else (firstIdx xs a).map (fun i => i + 1)

/-- `try: idx = stack.index(nbr) except ValueError: idx = 0`. -/
def idxOr0 (l : List String) (a : String) : Nat :=
  match firstIdx l a with
  | some i => i
  | none => 0

mutual

/-- Embedding of the inner `dfs` of `CircularWiringError.from_unprocessed`
(exceptions.py lines 59-77): mark the node visited and on-stack, scan its
dependencies — an unvisited in-graph neighbour is searched recursively, a
visited neighbour still on the stack is a back-edge and yields the cycle
path `stack[idx:] + [nbr]` — and on falling through pop the node.  The
fuel argument only bounds recursion depth (Python recursion terminates
via the visited set). -/
def dfs (deps : GraphT) : Nat → String → DfsSt → Option (List String) × DfsSt
  | 0, _, st => (none, st)
  | Nat.succ f, node, st =>
    let st1 : DfsSt :=
      ⟨st.visited ++ [node], st.stack ++ [node], st.onStack ++ [node]⟩
    match dfsNbrs deps f (depsOf deps node) st1 with
    | (some c, st2) => (some c, st2)
    | (none, st2) =>
      (none, ⟨st2.visited, st2.stack.dropLast, removeOne st2.onStack node⟩)
termination_by f _ _ => (f, 0)

/-- The `for nbr in dependencies.get(node, set())` loop of `dfs`. -/
def dfsNbrs (deps : GraphT) : Nat → List String → DfsSt → Option (List String) × DfsSt
  | _, [], st => (none, st)
  | f, nbr :: rest, st =>
    if nbr ∈ allNodes deps then
      if nbr ∈ st.visited then
        if nbr ∈ st.onStack then
          (some (st.stack.drop (idxOr0 st.stack nbr) ++ [nbr]), st)
        else dfsNbrs deps f rest st
      else
        match dfs deps f nbr st with
        | (some c, st2) => (some c, st2)
        | (none, st2) => dfsNbrs deps f rest st2
    else dfsNbrs deps f rest st
termination_by f l _ => (f, l.length + 1)

end

/-- The `for start in unprocessed` loop of `from_unprocessed`: DFS from
each not-yet-visited unprocessed node, returning the first cycle found. -/
def findCycle (deps : GraphT) (f : Nat) : List String → DfsSt → Option (List String) × DfsSt
  | [], st => (none, st)
  | u :: rest, st =>
    if u ∈ st.visited then findCycle deps f rest st
    else
      match dfs deps f u st with
      | (some c, st2) => (some c, st2)
      | (none, st2) => findCycle deps f rest st2

/-- Join with `", "` (`', '.join(unprocessed)`). -/
def joinComma (l : List String) : String := String.intercalate ", " l

/-- Embedding of `CircularWiringError.from_unprocessed` (exceptions.py
lines 39-91): the message of the constructed `CircularWiringError` —
with the full cycle path when the DFS finds a back-edge, otherwise just
the unprocessed set. -/
def from_unprocessed (deps : GraphT) (unprocessed : List String) (f : Nat) : String :=
  match (findCycle deps f unprocessed ⟨[], [], []⟩).1 with
  | some cyc =>
    "Circular dependency detected: " ++ joinComma unprocessed
      ++ "; cycle: " ++ joinArrow cyc
  | none => "Circular dependency detected: " ++ joinComma unprocessed

/-- A dependency chain: each element is followed by one of its
dependencies. -/
def chainB (deps : GraphT) : List String → Bool
  | [] => true
  | [_] => true
  | a :: b :: rest => decide (b ∈ depsOf deps a) && chainB deps (b :: rest)

/-- A static dependency cycle: a nonempty closed dependency chain
(first element = last element, at least one edge). -/
def isCycle (deps : GraphT) (c : List String) : Prop :=
  2 ≤ c.length ∧ c.head? = c.getLast? ∧ chainB deps c = true

/-- Modelled from the spec: one round of Kahn's algorithm (§4.2
"Kahn's algorithm (in-degree decrement)") formulated on the processed
set — the nodes not yet processed all of whose in-graph dependencies
are already processed. -/
def kahnNew (deps : GraphT) (p : List String) : List String :=
  (allNodes deps).filter (fun n =>
    decide (¬ n ∈ p) &&
    (depsOf deps n).all (fun d => if d ∈ allNodes deps then decide (d ∈ p) else true))

/-- Modelled from the spec: iterate Kahn rounds to fixpoint (fueled; a
fuel of `|nodes| + 1` always reaches the fixpoint). -/
def kahnLoop (deps : GraphT) : Nat → List String → List String
  | 0, p => p
  | Nat.succ f, p =>
    match kahnNew deps p with
    | [] => p
    | n :: ns => kahnLoop deps f (p ++ n :: ns)

/-- Modelled from the spec: the nodes Kahn's algorithm processes. -/
def kahnProcessed (deps : GraphT) : List String :=
  kahnLoop deps ((allNodes deps).length + 1) []

/-- Modelled from the spec: the unprocessed nodes left by the
topological sort ("If any node remains with nonzero in-degree"). -/
def kahnUnprocessed (deps : GraphT) : List String :=
  (allNodes deps).filter (fun n => decide (¬ n ∈ kahnProcessed deps))

/-- Modelled from the spec: construction-time cycle analysis — when
`allow_partial` is false and the topological sort leaves unprocessed
nodes, construction fails with `CircularWiringError` carrying the
message built by `from_unprocessed` (§4.2, testable property S5). -/
def analyzeCycles (deps : GraphT) (allowP : Bool) : Except String Unit :=
  if allowP then Except.ok () else
  match kahnUnprocessed deps with
  | [] => Except.ok ()
  | u :: us =>
    Except.error (from_unprocessed deps (u :: us) ((u :: us).length + 1))

/-- `on_stack ⊆ visited` for the DFS state. -/
def OSV (st : DfsSt) : Prop := ∀ x ∈ st.onStack, x ∈ st.visited

/-- `on_stack ⊆ stack` for the DFS state. -/
def OSS (st : DfsSt) : Prop := ∀ x ∈ st.onStack, x ∈ st.stack

theorem removeOne_concat_self : ∀ (l : List String) (a : String), ¬ a ∈ l →
    removeOne (l ++ [a]) a = l
  | [], a, _ => by simp [removeOne]
  | x :: xs, a, h => by
    have hx : ¬ x = a := fun he => h (by rw [he]; exact List.mem_cons_self _ _)
    simp only [List.cons_append, removeOne, if_neg hx]
    exact congrArg (fun t => x :: t)
      (removeOne_concat_self xs a (fun hm => h (List.mem_cons_of_mem _ hm)))

/-- Restoration shape: stack and on-stack restored exactly, visited only
grown, `on_stack ⊆ visited` maintained. -/
def RestoreTo (st st2 : DfsSt) : Prop :=
  st2.stack = st.stack ∧ st2.onStack = st.onStack ∧
  (∀ x ∈ st.visited, x ∈ st2.visited) ∧ OSV st2

theorem restoreTo_rfl (st : DfsSt) (h : OSV st) : RestoreTo st st :=
  ⟨rfl, rfl, fun _ hx => hx, h⟩

theorem restoreTo_trans {st stm st2 : DfsSt} (h1 : RestoreTo st stm)
    (h2 : RestoreTo stm st2) : RestoreTo st st2 :=
  ⟨h2.1.trans h1.1, h2.2.1.trans h1.2.1,
   fun x hx => h2.2.2.1 x (h1.2.2.1 x hx), h2.2.2.2⟩

/-- The neighbour loop of `dfs`, on a `none` result, restores `stack`
and `on_stack` and only grows `visited` — given the same for `dfs` at
the loop's fuel. -/
theorem dfsNbrsA (deps : GraphT) (f : Nat)
    (hdfs : ∀ (node : String) (st st2 : DfsSt), ¬ node ∈ st.visited → OSV st →
      dfs deps f node st = (none, st2) → RestoreTo st st2) :
    ∀ (l : List String) (st st2 : DfsSt), OSV st →
      dfsNbrs deps f l st = (none, st2) → RestoreTo st st2 := by
  intro l
  induction l with
  | nil =>
    intro st st2 hosv h
    simp only [dfsNbrs] at h
    injection h with _ h2
    subst h2
    exact restoreTo_rfl st hosv
  | cons nbr rest ih =>
    intro st st2 hosv h
    simp only [dfsNbrs] at h
    by_cases h1 : nbr ∈ allNodes deps
    · rw [if_pos h1] at h
      by_cases h2 : nbr ∈ st.visited
      · rw [if_pos h2] at h
        by_cases h3 : nbr ∈ st.onStack
        · rw [if_pos h3] at h
          simp at h
        · rw [if_neg h3] at h
          exact ih st st2 hosv h
      · rw [if_neg h2] at h
        rcases hd : dfs deps f nbr st with ⟨r, stm⟩
        rw [hd] at h
        cases r with
        | some c => dsimp only at h; simp at h
        | none =>
          dsimp only at h
          have hA := hdfs nbr st stm h2 hosv hd
          exact restoreTo_trans hA (ih stm st2 hA.2.2.2 h)
    · rw [if_neg h1] at h
      exact ih st st2 hosv h

/-- A `none` result of `dfs` restores `stack` and `on_stack` exactly
(the node pushed on entry is popped on exit) and only grows `visited`. -/
theorem dfsA (deps : GraphT) : ∀ (f : Nat) (node : String) (st st2 : DfsSt),
    ¬ node ∈ st.visited → OSV st → dfs deps f node st = (none, st2) →
    RestoreTo st st2 := by
  intro f
  induction f with
  | zero =>
    intro node st st2 _ hosv h
    simp only [dfs] at h
    injection h with _ h2
    subst h2
    exact restoreTo_rfl st hosv
  | succ f ih =>
    intro node st st2 hv hosv h
    simp only [dfs] at h
    rcases hd : dfsNbrs deps f (depsOf deps node)
        ⟨st.visited ++ [node], st.stack ++ [node], st.onStack ++ [node]⟩ with ⟨r, stm⟩
    rw [hd] at h
    cases r with
    | some c => dsimp only at h; simp at h
    | none =>
      dsimp only at h
      have hosv1 : OSV ⟨st.visited ++ [node], st.stack ++ [node],
          st.onStack ++ [node]⟩ := by
        intro x hx
        rcases List.mem_append.1 hx with hx | hx
        · exact List.mem_append.2 (Or.inl (hosv x hx))
        · exact List.mem_append.2 (Or.inr hx)
      have hA := dfsNbrsA deps f ih _ _ stm hosv1 hd
      injection h with _ h2
      subst h2
      have hnos : ¬ node ∈ st.onStack := fun hm => hv (hosv node hm)
      refine ⟨?_, ?_, ?_, ?_⟩
      · show stm.stack.dropLast = st.stack
        rw [hA.1]
        exact List.dropLast_concat
      · show removeOne stm.onStack node = st.onStack
        rw [hA.2.1]
        exact removeOne_concat_self _ _ hnos
      · intro x hx
        exact hA.2.2.1 x (List.mem_append.2 (Or.inl hx))
      · intro x hx
        have hx2 : x ∈ stm.onStack := by
          rw [hA.2.1]
          show x ∈ st.onStack ++ [node]
          have hx3 : x ∈ removeOne stm.onStack node := hx
          rw [hA.2.1] at hx3
          rw [removeOne_concat_self _ _ hnos] at hx3
          exact List.mem_append.2 (Or.inl hx3)
        exact hA.2.2.2 x hx2

/-- Neighbour-loop half of `dfsB`: if every in-graph neighbour in the
list is processed, the loop only visits already-visited or processed
nodes. -/
theorem dfsNbrsB (deps : GraphT) (U : List String) (f : Nat)
    (hdfs : ∀ (node : String) (st : DfsSt) (r : Option (List String)) (st2 : DfsSt),
      node ∈ allNodes deps → ¬ node ∈ U → dfs deps f node st = (r, st2) →
      ∀ w ∈ st2.visited, w ∈ st.visited ∨ (w ∈ allNodes deps ∧ ¬ w ∈ U)) :
    ∀ (l : List String) (st : DfsSt) (r : Option (List String)) (st2 : DfsSt),
      (∀ x ∈ l, x ∈ allNodes deps → ¬ x ∈ U) →
      dfsNbrs deps f l st = (r, st2) →
      ∀ w ∈ st2.visited, w ∈ st.visited ∨ (w ∈ allNodes deps ∧ ¬ w ∈ U) := by
  intro l
  induction l with
  | nil =>
    intro st r st2 _ h w hw
    simp only [dfsNbrs] at h
    injection h with _ h2
    subst h2
    exact Or.inl hw
  | cons nbr rest ih =>
    intro st r st2 hl h w hw
    simp only [dfsNbrs] at h
    by_cases h1 : nbr ∈ allNodes deps
    · rw [if_pos h1] at h
      by_cases h2 : nbr ∈ st.visited
      · rw [if_pos h2] at h
        by_cases h3 : nbr ∈ st.onStack
        · rw [if_pos h3] at h
          injection h with _ h4
          subst h4
          exact Or.inl hw
        · rw [if_neg h3] at h
          exact ih st r st2 (fun x hx => hl x (List.mem_cons_of_mem _ hx)) h w hw
      · rw [if_neg h2] at h
        rcases hd : dfs deps f nbr st with ⟨r1, stm⟩
        rw [hd] at h
        have hB := hdfs nbr st r1 stm h1
          (hl nbr (List.mem_cons_self _ _) h1) hd
        cases r1 with
        | some c =>
          dsimp only at h
          injection h with _ h4
          subst h4
          exact hB w hw
        | none =>
          dsimp only at h
          rcases ih stm r st2 (fun x hx => hl x (List.mem_cons_of_mem _ hx)) h w hw with
            hv | hg
          · exact hB w hv
          · exact Or.inr hg
    · rw [if_neg h1] at h
      exact ih st r st2 (fun x hx => hl x (List.mem_cons_of_mem _ hx)) h w hw

/-- When the processed part of the graph is closed under in-graph
dependencies, a DFS started at a processed node visits only processed
nodes: the unprocessed nodes' visited/on-stack status is untouched. -/
theorem dfsB (deps : GraphT) (U : List String)
    (hU3 : ∀ x ∈ allNodes deps, ¬ x ∈ U → ∀ d ∈ depsOf deps x,
      d ∈ allNodes deps → ¬ d ∈ U) :
    ∀ (f : Nat) (node : String) (st : DfsSt) (r : Option (List String)) (st2 : DfsSt),
      node ∈ allNodes deps → ¬ node ∈ U → dfs deps f node st = (r, st2) →
      ∀ w ∈ st2.visited, w ∈ st.visited ∨ (w ∈ allNodes deps ∧ ¬ w ∈ U) := by
  intro f
  induction f with
  | zero =>
    intro node st r st2 _ _ h w hw
    simp only [dfs] at h
    injection h with _ h2
    subst h2
    exact Or.inl hw
  | succ f ih =>
    intro node st r st2 hnode hnU h w hw
    simp only [dfs] at h
    rcases hd : dfsNbrs deps f (depsOf deps node)
        ⟨st.visited ++ [node], st.stack ++ [node], st.onStack ++ [node]⟩ with ⟨r1, stm⟩
    rw [hd] at h
    have hB := dfsNbrsB deps U f ih (depsOf deps node) _ r1 stm
      (fun x hx => hU3 node hnode hnU x hx) hd
    have hw2 : w ∈ stm.visited := by
      cases r1 with
      | some c =>
        dsimp only at h
        injection h with _ h2
        subst h2
        exact hw
      | none =>
        dsimp only at h
        injection h with _ h2
        subst h2
        exact hw
    rcases hB w hw2 with hv | hg
    · rcases List.mem_append.1 hv with hv | hv
      · exact Or.inl hv
      · have : w = node := List.mem_singleton.1 hv
        subst this
        exact Or.inr ⟨hnode, hnU⟩
    · exact Or.inr hg

theorem firstIdx_spec : ∀ (l : List String) (a : String), a ∈ l →
    ∃ i, firstIdx l a = some i ∧ (l.drop i).head? = some a ∧ i < l.length
  | [], a, h => absurd h (List.not_mem_nil a)
  | x :: xs, a, h => by
    by_cases hx : x = a
    · refine ⟨0, ?_, ?_, ?_⟩
      · simp only [firstIdx, if_pos hx]
      · simp only [List.drop_zero, List.head?_cons, hx]
      · simp only [List.length_cons]; omega
    · have hm : a ∈ xs := by
        rcases List.mem_cons.1 h with h | h
        · exact absurd h.symm hx
        · exact h
      obtain ⟨i, h1, h2, h3⟩ := firstIdx_spec xs a hm
      refine ⟨i + 1, ?_, ?_, ?_⟩
      · simp only [firstIdx, if_neg hx, h1]
        rfl
      · simpa using h2
      · simp only [List.length_cons]; omega

theorem idxOr0_spec (l : List String) (a : String) (h : a ∈ l) :
    (l.drop (idxOr0 l a)).head? = some a ∧ idxOr0 l a < l.length := by
  obtain ⟨i, h1, h2, h3⟩ := firstIdx_spec l a h
  unfold idxOr0
  rw [h1]
  exact ⟨h2, h3⟩

theorem getLast?_concat' : ∀ (l : List String) (a : String),
    (l ++ [a]).getLast? = some a
  | [], a => rfl
  | [x], a => rfl
  | x :: y :: xs, a => by
    have := getLast?_concat' (y :: xs) a
    simpa using this

theorem getLast?_drop : ∀ (l : List String) (i : Nat), i < l.length →
    (l.drop i).getLast? = l.getLast?
  | _, 0, _ => by simp
  | [], i + 1, h => by simp at h
  | x :: xs, i + 1, h => by
    have hx : i < xs.length := by simp only [List.length_cons] at h; omega
    have hne : xs ≠ [] := by
      intro he
      rw [he] at hx
      simp at hx
    rcases xs with _ | ⟨y, ys⟩
    · simp at hx
    · rw [List.drop_succ_cons]
      rw [getLast?_drop (y :: ys) i hx]
      rfl

theorem chainB_tail (deps : GraphT) (a : String) : ∀ (l : List String),
    chainB deps (a :: l) = true → chainB deps l = true
  | [] => fun _ => rfl
  | b :: rest => fun h => by
    simp only [chainB, Bool.and_eq_true] at h
    exact h.2

theorem chainB_drop (deps : GraphT) : ∀ (i : Nat) (l : List String),
    chainB deps l = true → chainB deps (l.drop i) = true
  | 0, l, h => h
  | i + 1, [], h => h
  | i + 1, x :: xs, h => by
    rw [List.drop_succ_cons]
    exact chainB_drop deps i xs (chainB_tail deps x xs h)

theorem chainB_concat (deps : GraphT) (a : String) : ∀ (l : List String),
    chainB deps l = true →
    (∀ z, l.getLast? = some z → a ∈ depsOf deps z) →
    chainB deps (l ++ [a]) = true
  | [], _, _ => rfl
  | [x], _, hz => by
    simp only [List.cons_append, List.nil_append, chainB, Bool.and_eq_true]
    exact ⟨decide_eq_true (hz x rfl), trivial⟩
  | x :: y :: xs, h, hz => by
    simp only [chainB, Bool.and_eq_true] at h
    have h2 := chainB_concat deps a (y :: xs) h.2 (fun z hzz => hz z (by simpa using hzz))
    simp only [List.cons_append, chainB, Bool.and_eq_true]
    constructor
    · exact h.1
    · simpa using h2

/-- Soundness of the back-edge case and of the neighbour loop: any
cycle path `dfsNbrs` returns is a genuine dependency cycle — given
soundness of `dfs` at the loop's fuel. -/
theorem dfsNbrsS (deps : GraphT) (f : Nat)
    (hdfs : ∀ (node : String) (st : DfsSt) (c : List String) (st2 : DfsSt),
      ¬ node ∈ st.visited → OSS st → OSV st → chainB deps st.stack = true →
      (∀ z, st.stack.getLast? = some z → node ∈ depsOf deps z) →
      dfs deps f node st = (some c, st2) → isCycle deps c) :
    ∀ (l : List String) (st : DfsSt) (c : List String) (st2 : DfsSt),
      OSS st → OSV st → chainB deps st.stack = true →
      (∀ x ∈ l, ∀ z, st.stack.getLast? = some z → x ∈ depsOf deps z) →
      dfsNbrs deps f l st = (some c, st2) → isCycle deps c := by
  intro l
  induction l with
  | nil =>
    intro st c st2 _ _ _ _ h
    simp only [dfsNbrs] at h
    simp at h
  | cons nbr rest ih =>
    intro st c st2 hoss hosv hchain hl h
    simp only [dfsNbrs] at h
    by_cases h1 : nbr ∈ allNodes deps
    · rw [if_pos h1] at h
      by_cases h2 : nbr ∈ st.visited
      · rw [if_pos h2] at h
        by_cases h3 : nbr ∈ st.onStack
        · rw [if_pos h3] at h
          injection h with h4 _
          have h5 := Option.some.inj h4
          subst h5
          have hmem : nbr ∈ st.stack := hoss nbr h3
          obtain ⟨hhd, hlt⟩ := idxOr0_spec st.stack nbr hmem
          rcases hD : st.stack.drop (idxOr0 st.stack nbr) with _ | ⟨y, t⟩
          · rw [hD] at hhd
            simp at hhd
          · rw [hD] at hhd
            have hy : y = nbr := by simpa using hhd
            rw [hy] at hD
            rw [hy]
            refine ⟨?_, ?_, ?_⟩
            · simp only [List.cons_append, List.length_cons, List.length_append]
              omega
            · show ((nbr :: t) ++ [nbr]).head? = ((nbr :: t) ++ [nbr]).getLast?
              rw [getLast?_concat' (nbr :: t) nbr]
              rfl
            · show chainB deps ((nbr :: t) ++ [nbr]) = true
              have hc1 : chainB deps (nbr :: t) = true := by
                rw [← hD]
                exact chainB_drop deps _ _ hchain
              refine chainB_concat deps nbr (nbr :: t) hc1 ?_
              intro z hzz
              have hzz2 : st.stack.getLast? = some z := by
                rw [← getLast?_drop st.stack (idxOr0 st.stack nbr) hlt, hD]
                exact hzz
              exact hl nbr (List.mem_cons_self _ _) z hzz2
        · rw [if_neg h3] at h
          exact ih st c st2 hoss hosv hchain
            (fun x hx => hl x (List.mem_cons_of_mem _ hx)) h
      · rw [if_neg h2] at h
        rcases hd : dfs deps f nbr st with ⟨r1, stm⟩
        rw [hd] at h
        cases r1 with
        | some c1 =>
          dsimp only at h
          injection h with h4 _
          have h5 := Option.some.inj h4
          subst h5
          exact hdfs nbr st c1 stm h2 hoss hosv hchain
            (fun z hz => hl nbr (List.mem_cons_self _ _) z hz) hd
        | none =>
          dsimp only at h
          have hA := dfsA deps f nbr st stm h2 hosv hd
          have hoss2 : OSS stm := by
            intro x hx
            rw [hA.1]
            rw [hA.2.1] at hx
            exact hoss x hx
          have hchain2 : chainB deps stm.stack = true := by
            rw [hA.1]
            exact hchain
          have hl2 : ∀ x ∈ rest, ∀ z, stm.stack.getLast? = some z →
              x ∈ depsOf deps z := by
            intro x hx z hz
            rw [hA.1] at hz
            exact hl x (List.mem_cons_of_mem _ hx) z hz
          exact ih stm c st2 hoss2 hA.2.2.2 hchain2 hl2 h
    · rw [if_neg h1] at h
      exact ih st c st2 hoss hosv hchain
        (fun x hx => hl x (List.mem_cons_of_mem _ hx)) h

/-- DFS soundness (`from_unprocessed`): any cycle path returned by the
inner `dfs` is a genuine dependency cycle — its first and last element
coincide and consecutive elements are joined by dependency edges. -/
theorem dfsS (deps : GraphT) : ∀ (f : Nat) (node : String) (st : DfsSt)
    (c : List String) (st2 : DfsSt),
    ¬ node ∈ st.visited → OSS st → OSV st → chainB deps st.stack = true →
    (∀ z, st.stack.getLast? = some z → node ∈ depsOf deps z) →
    dfs deps f node st = (some c, st2) → isCycle deps c := by
  intro f
  induction f with
  | zero =>
    intro node st c st2 _ _ _ _ _ h
    simp only [dfs] at h
    simp at h
  | succ f ih =>
    intro node st c st2 hv hoss hosv hchain hedge h
    simp only [dfs] at h
    rcases hd : dfsNbrs deps f (depsOf deps node)
        ⟨st.visited ++ [node], st.stack ++ [node], st.onStack ++ [node]⟩ with ⟨r1, stm⟩
    rw [hd] at h
    cases r1 with
    | some c1 =>
      dsimp only at h
      injection h with h4 _
      have h5 := Option.some.inj h4
      subst h5
      have hoss1 : OSS ⟨st.visited ++ [node], st.stack ++ [node],
          st.onStack ++ [node]⟩ := by
        intro x hx
        rcases List.mem_append.1 hx with hx | hx
        · exact List.mem_append.2 (Or.inl (hoss x hx))
        · exact List.mem_append.2 (Or.inr hx)
      have hosv1 : OSV ⟨st.visited ++ [node], st.stack ++ [node],
          st.onStack ++ [node]⟩ := by
        intro x hx
        rcases List.mem_append.1 hx with hx | hx
        · exact List.mem_append.2 (Or.inl (hosv x hx))
        · exact List.mem_append.2 (Or.inr hx)
      have hchain1 : chainB deps (st.stack ++ [node]) = true :=
        chainB_concat deps node st.stack hchain hedge
      have hl1 : ∀ x ∈ depsOf deps node, ∀ z,
          (st.stack ++ [node]).getLast? = some z → x ∈ depsOf deps z := by
        intro x hx z hz
        rw [getLast?_concat' st.stack node] at hz
        have hz2 := Option.some.inj hz
        subst hz2
        exact hx
      exact dfsNbrsS deps f ih (depsOf deps node) _ c1 stm hoss1 hosv1 hchain1 hl1 hd
    | none =>
      dsimp only at h
      simp at h

/-- Soundness of the outer `for start in unprocessed` loop: any cycle
path it returns is a genuine dependency cycle. -/
theorem findCycleS (deps : GraphT) (f : Nat) :
    ∀ (starts : List String) (st : DfsSt) (c : List String) (st2 : DfsSt),
      st.stack = [] → OSS st → OSV st →
      findCycle deps f starts st = (some c, st2) → isCycle deps c := by
  intro starts
  induction starts with
  | nil =>
    intro st c st2 _ _ _ h
    simp only [findCycle] at h
    simp at h
  | cons u rest ih =>
    intro st c st2 hnil hoss hosv h
    simp only [findCycle] at h
    by_cases h1 : u ∈ st.visited
    · rw [if_pos h1] at h
      exact ih st c st2 hnil hoss hosv h
    · rw [if_neg h1] at h
      rcases hd : dfs deps f u st with ⟨r1, stm⟩
      rw [hd] at h
      cases r1 with
      | some c1 =>
        dsimp only at h
        injection h with h4 _
        have h5 := Option.some.inj h4
        subst h5
        refine dfsS deps f u st c1 stm h1 hoss hosv ?_ ?_ hd
        · rw [hnil]; rfl
        · intro z hz
          rw [hnil] at hz
          simp at hz
      | none =>
        dsimp only at h
        have hA := dfsA deps f u st stm h1 hosv hd
        have hoss2 : OSS stm := by
          intro x hx
          rw [hA.1]
          rw [hA.2.1] at hx
          exact hoss x hx
        exact ih stm c st2 (hA.1.trans hnil) hoss2 hA.2.2.2 h

/-- Number of unprocessed nodes not yet visited — the DFS recursion-depth
measure. -/
def unvisU (U : List String) (st : DfsSt) : Nat :=
  (U.filter (fun x => decide (¬ x ∈ st.visited))).length

theorem length_filter_mono {p q : String → Bool}
    (himp : ∀ x, q x = true → p x = true) :
    ∀ l : List String, (l.filter q).length ≤ (l.filter p).length := by
  intro l
  induction l with
  | nil => exact Nat.le_refl _
  | cons x xs ih =>
    by_cases hq : q x = true
    · rw [List.filter_cons_of_pos hq, List.filter_cons_of_pos (himp x hq)]
      simpa using ih
    · rw [List.filter_cons_of_neg (by simpa using hq)]
      by_cases hp : p x = true
      · rw [List.filter_cons_of_pos hp]
        exact Nat.le_trans ih (by simp)
      · rw [List.filter_cons_of_neg (by simpa using hp)]
        exact ih

theorem length_filter_strict {p q : String → Bool}
    (himp : ∀ x, q x = true → p x = true) :
    ∀ (l : List String) (a : String), a ∈ l → p a = true → q a = false →
      (l.filter q).length < (l.filter p).length := by
  intro l
  induction l with
  | nil => intro a ha; exact absurd ha (List.not_mem_nil a)
  | cons x xs ih =>
    intro a ha hpa hqa
    rcases List.mem_cons.1 ha with he | hm
    · subst he
      rw [List.filter_cons_of_pos hpa, List.filter_cons_of_neg (by simp [hqa])]
      exact Nat.lt_succ_of_le (length_filter_mono himp xs)
    · by_cases hq : q x = true
      · rw [List.filter_cons_of_pos hq, List.filter_cons_of_pos (himp x hq)]
        simpa using ih a hm hpa hqa
      · rw [List.filter_cons_of_neg (by simpa using hq)]
        by_cases hp : p x = true
        · rw [List.filter_cons_of_pos hp]
          exact Nat.lt_succ_of_lt (ih a hm hpa hqa)
        · rw [List.filter_cons_of_neg (by simpa using hp)]
          exact ih a hm hpa hqa

theorem unvisU_mono (U : List String) {st st2 : DfsSt}
    (h : ∀ x ∈ st.visited, x ∈ st2.visited) : unvisU U st2 ≤ unvisU U st := by
  refine length_filter_mono ?_ U
  intro x hx
  simp only [decide_eq_true_eq] at hx ⊢
  exact fun hm => hx (h x hm)

theorem unvisU_strict (U : List String) {st st2 : DfsSt} (node : String)
    (hmem : node ∈ U) (hv : ¬ node ∈ st.visited) (hv2 : node ∈ st2.visited)
    (h : ∀ x ∈ st.visited, x ∈ st2.visited) : unvisU U st2 < unvisU U st := by
  refine length_filter_strict ?_ U node hmem ?_ ?_
  · intro x hx
    simp only [decide_eq_true_eq] at hx ⊢
    exact fun hm => hx (h x hm)
  · simp [hv]
  · simp [hv2]

/-- The invariant carried by the completeness induction: no unprocessed
node is ever "black" — visited but off the stack. -/
def InvU (U : List String) (st : DfsSt) : Prop :=
  ∀ w ∈ U, w ∈ st.visited → w ∈ st.onStack

/-- Neighbour-loop half of completeness: if the neighbour list holds an
in-graph unprocessed node, the loop finds a cycle. -/
theorem dfsNbrsC (deps : GraphT) (U : List String)
    (hU3 : ∀ x ∈ allNodes deps, ¬ x ∈ U → ∀ d ∈ depsOf deps x,
      d ∈ allNodes deps → ¬ d ∈ U) (f : Nat)
    (hdfs : ∀ (node : String) (st : DfsSt), InvU U st → OSV st → node ∈ U →
      ¬ node ∈ st.visited → unvisU U st + 1 ≤ f →
      ∃ c st2, dfs deps f node st = (some c, st2)) :
    ∀ (l : List String) (st : DfsSt), InvU U st → OSV st →
      (∃ x, x ∈ l ∧ x ∈ allNodes deps ∧ x ∈ U) →
      unvisU U st + 1 ≤ f →
      ∃ c st2, dfsNbrs deps f l st = (some c, st2) := by
  intro l
  induction l with
  | nil =>
    intro st _ _ hex _
    rcases hex with ⟨x, hx, _, _⟩
    exact absurd hx (List.not_mem_nil x)
  | cons nbr rest ih =>
    intro st hinv hosv hex hfuel
    by_cases hqa : nbr ∈ allNodes deps ∧ nbr ∈ U
    · by_cases h2 : nbr ∈ st.visited
      · refine ⟨st.stack.drop (idxOr0 st.stack nbr) ++ [nbr], st, ?_⟩
        simp only [dfsNbrs]
        rw [if_pos hqa.1, if_pos h2, if_pos (hinv nbr hqa.2 h2)]
      · obtain ⟨c, st2, hc⟩ := hdfs nbr st hinv hosv hqa.2 h2 hfuel
        refine ⟨c, st2, ?_⟩
        simp only [dfsNbrs]
        rw [if_pos hqa.1, if_neg h2, hc]
    · have hxr : ∃ x, x ∈ rest ∧ x ∈ allNodes deps ∧ x ∈ U := by
        rcases hex with ⟨x, hx, hxa, hxu⟩
        rcases List.mem_cons.1 hx with he | hm
        · subst he
          exact absurd ⟨hxa, hxu⟩ hqa
        · exact ⟨x, hm, hxa, hxu⟩
      by_cases h1 : nbr ∈ allNodes deps
      · by_cases h2 : nbr ∈ st.visited
        · by_cases h3 : nbr ∈ st.onStack
          · refine ⟨st.stack.drop (idxOr0 st.stack nbr) ++ [nbr], st, ?_⟩
            simp only [dfsNbrs]
            rw [if_pos h1, if_pos h2, if_pos h3]
          · obtain ⟨c, st2, hc⟩ := ih st hinv hosv hxr hfuel
            refine ⟨c, st2, ?_⟩
            simp only [dfsNbrs]
            rw [if_pos h1, if_pos h2, if_neg h3, hc]
        · have hnU : ¬ nbr ∈ U := fun hm => hqa ⟨h1, hm⟩
          rcases hd : dfs deps f nbr st with ⟨r1, stm⟩
          cases r1 with
          | some c =>
            refine ⟨c, stm, ?_⟩
            simp only [dfsNbrs]
            rw [if_pos h1, if_neg h2, hd]
          | none =>
            have hA := dfsA deps f nbr st stm h2 hosv hd
            have hB := dfsB deps U hU3 f nbr st none stm h1 hnU hd
            have hinv2 : InvU U stm := by
              intro w hw hwv
              rcases hB w hwv with hv | hg
              · rw [hA.2.1]
                exact hinv w hw hv
              · exact absurd hw hg.2
            have hfuel2 : unvisU U stm + 1 ≤ f :=
              Nat.le_trans (Nat.add_le_add_right (unvisU_mono U hA.2.2.1) 1) hfuel
            obtain ⟨c, st2, hc⟩ := ih stm hinv2 hA.2.2.2 hxr hfuel2
            refine ⟨c, st2, ?_⟩
            simp only [dfsNbrs]
            rw [if_pos h1, if_neg h2, hd]
            dsimp only
            exact hc
      · obtain ⟨c, st2, hc⟩ := ih st hinv hosv hxr hfuel
        refine ⟨c, st2, ?_⟩
        simp only [dfsNbrs]
        rw [if_neg h1, hc]

/-- DFS completeness: when every unprocessed node has an in-graph
unprocessed dependency (the invariant the topological sort leaves
behind) and the processed region is dependency-closed, a DFS started at
an unvisited unprocessed node always finds a back-edge cycle, given
fuel beyond the number of unvisited unprocessed nodes. -/
theorem dfsC (deps : GraphT) (U : List String)
    (hU1 : ∀ u ∈ U, ∃ d, d ∈ depsOf deps u ∧ d ∈ allNodes deps ∧ d ∈ U)
    (hU3 : ∀ x ∈ allNodes deps, ¬ x ∈ U → ∀ d ∈ depsOf deps x,
      d ∈ allNodes deps → ¬ d ∈ U) :
    ∀ (f : Nat) (node : String) (st : DfsSt), InvU U st → OSV st → node ∈ U →
      ¬ node ∈ st.visited → unvisU U st + 1 ≤ f →
      ∃ c st2, dfs deps f node st = (some c, st2) := by
  intro f
  induction f with
  | zero =>
    intro node st _ _ _ _ hfuel
    exact absurd hfuel (by omega)
  | succ f ih =>
    intro node st hinv hosv hmem hv hfuel
    have hinv1 : InvU U ⟨st.visited ++ [node], st.stack ++ [node],
        st.onStack ++ [node]⟩ := by
      intro w hw hwv
      rcases List.mem_append.1 hwv with hv2 | hv2
      · exact List.mem_append.2 (Or.inl (hinv w hw hv2))
      · exact List.mem_append.2 (Or.inr hv2)
    have hosv1 : OSV ⟨st.visited ++ [node], st.stack ++ [node],
        st.onStack ++ [node]⟩ := by
      intro x hx
      rcases List.mem_append.1 hx with hx | hx
      · exact List.mem_append.2 (Or.inl (hosv x hx))
      · exact List.mem_append.2 (Or.inr hx)
    have hex : ∃ x, x ∈ depsOf deps node ∧ x ∈ allNodes deps ∧ x ∈ U := by
      obtain ⟨d, h1, h2, h3⟩ := hU1 node hmem
      exact ⟨d, h1, h2, h3⟩
    have hstrict : unvisU U ⟨st.visited ++ [node], st.stack ++ [node],
        st.onStack ++ [node]⟩ < unvisU U st := by
      refine unvisU_strict U node hmem hv ?_ ?_
      · show node ∈ st.visited ++ [node]
        exact List.mem_append.2 (Or.inr (List.mem_singleton.2 rfl))
      · intro x hx
        exact List.mem_append.2 (Or.inl hx)
    have hfuel1 : unvisU U ⟨st.visited ++ [node], st.stack ++ [node],
        st.onStack ++ [node]⟩ + 1 ≤ f := by omega
    obtain ⟨c, st2, hc⟩ := dfsNbrsC deps U hU3 f ih (depsOf deps node) _
      hinv1 hosv1 hex hfuel1
    refine ⟨c, st2, ?_⟩
    simp only [dfs]
    rw [hc]

theorem chain_succ (deps : GraphT) : ∀ (l : List String),
    chainB deps l = true → ∀ x ∈ l,
    (∃ y, y ∈ l ∧ y ∈ depsOf deps x) ∨ l.getLast? = some x
  | [], _, x, hx => absurd hx (List.not_mem_nil x)
  | [a], _, x, hx => by
    have he : x = a := by simpa using hx
    subst he
    exact Or.inr rfl
  | a :: b :: t, h, x, hx => by
    simp only [chainB, Bool.and_eq_true, decide_eq_true_eq] at h
    rcases List.mem_cons.1 hx with he | hm
    · subst he
      exact Or.inl ⟨b, List.mem_cons_of_mem _ (List.mem_cons_self _ _), h.1⟩
    · rcases chain_succ deps (b :: t) h.2 x hm with ⟨y, hy1, hy2⟩ | hlast
      · exact Or.inl ⟨y, List.mem_cons_of_mem _ hy1, hy2⟩
      · exact Or.inr (by simpa using hlast)

/-- Every member of a dependency cycle has a successor inside the cycle
that it depends on. -/
theorem cycle_succ (deps : GraphT) (c : List String) (hc : isCycle deps c) :
    ∀ x ∈ c, ∃ y, y ∈ c ∧ y ∈ depsOf deps x := by
  intro x hx
  rcases chain_succ deps c hc.2.2 x hx with h | hlast
  · exact h
  · rcases c with _ | ⟨a, rest⟩
    · exact absurd hx (List.not_mem_nil x)
    · rcases rest with _ | ⟨b, t⟩
      · exact absurd hc.1 (by simp)
      · have hhead : (a :: b :: t).head? = some x := hc.2.1.trans hlast
        have hax : a = x := by simpa using hhead
        subst hax
        have h2 := hc.2.2
        simp only [chainB, Bool.and_eq_true, decide_eq_true_eq] at h2
        exact ⟨b, List.mem_cons_of_mem _ (List.mem_cons_self _ _), h2.1⟩

theorem mem_kahnNew {deps : GraphT} {p : List String} {x : String}
    (h : x ∈ kahnNew deps p) :
    x ∈ allNodes deps ∧ ¬ x ∈ p ∧
    ∀ d ∈ depsOf deps x, d ∈ allNodes deps → d ∈ p := by
  have h2 := List.mem_filter.1 h
  refine ⟨h2.1, ?_, ?_⟩
  · have h3 := h2.2
    simp only [Bool.and_eq_true, decide_eq_true_eq] at h3
    exact h3.1
  · intro d hd hda
    have h3 := h2.2
    simp only [Bool.and_eq_true, decide_eq_true_eq, List.all_eq_true] at h3
    have h4 := h3.2 d hd
    rw [if_pos hda] at h4
    simpa using h4

/-- The nodes of a dependency cycle are never processed by the Kahn
iteration: each such node always retains an unprocessed dependency. -/
theorem kahnLoop_cycle_free (deps : GraphT) (c : List String)
    (hc : isCycle deps c) (hmem : ∀ x ∈ c, x ∈ allNodes deps) :
    ∀ (f : Nat) (p : List String), (∀ x ∈ c, ¬ x ∈ p) →
    ∀ x ∈ c, ¬ x ∈ kahnLoop deps f p := by
  intro f
  induction f with
  | zero => intro p hp; exact hp
  | succ f ih =>
    intro p hp
    simp only [kahnLoop]
    rcases hK : kahnNew deps p with _ | ⟨n, ns⟩
    · exact hp
    · refine ih (p ++ n :: ns) ?_
      intro x hx hxm
      rcases List.mem_append.1 hxm with hm | hm
      · exact hp x hx hm
      · rw [← hK] at hm
        have h2 := mem_kahnNew hm
        obtain ⟨y, hy1, hy2⟩ := cycle_succ deps c hc x hx
        exact hp y hy1 (h2.2.2 y hy2 (hmem y hy1))

/-- Monotone closure of the processed set: a processed node's in-graph
dependencies are processed. -/
theorem kahnLoop_closed (deps : GraphT) :
    ∀ (f : Nat) (p : List String),
      (∀ x ∈ p, ∀ d ∈ depsOf deps x, d ∈ allNodes deps → d ∈ p) →
      ∀ x ∈ kahnLoop deps f p, ∀ d ∈ depsOf deps x,
        d ∈ allNodes deps → d ∈ kahnLoop deps f p := by
  intro f
  induction f with
  | zero => intro p hp; exact hp
  | succ f ih =>
    intro p hp
    simp only [kahnLoop]
    rcases hK : kahnNew deps p with _ | ⟨n, ns⟩
    · exact hp
    · refine ih (p ++ n :: ns) ?_
      intro x hx d hd hda
      rcases List.mem_append.1 hx with hm | hm
      · exact List.mem_append.2 (Or.inl (hp x hm d hd hda))
      · rw [← hK] at hm
        exact List.mem_append.2 (Or.inl ((mem_kahnNew hm).2.2 d hd hda))

/-- With fuel `|nodes| + 1` the Kahn iteration reaches its fixpoint: no
further node is processable. -/
theorem kahnLoop_fixpoint (deps : GraphT) (hnd : (allNodes deps).Nodup) :
    ∀ (f : Nat) (p : List String), p.Nodup → (∀ x ∈ p, x ∈ allNodes deps) →
      (allNodes deps).length + 1 ≤ f + p.length →
      kahnNew deps (kahnLoop deps f p) = [] := by
  intro f
  induction f with
  | zero =>
    intro p hpnd hpsub hlen
    have hle : p.length ≤ (allNodes deps).length :=
      (hpnd.subperm (fun x hx => hpsub x hx)).length_le
    omega
  | succ f ih =>
    intro p hpnd hpsub hlen
    simp only [kahnLoop]
    rcases hK : kahnNew deps p with _ | ⟨n, ns⟩
    · exact hK
    · have hnewnd : (kahnNew deps p).Nodup := hnd.filter _
      have hdisj : p.Disjoint (n :: ns) := by
        intro x hx hxn
        rw [← hK] at hxn
        exact (mem_kahnNew hxn).2.1 hx
      refine ih (p ++ n :: ns) ?_ ?_ ?_
      · exact hpnd.append (hK ▸ hnewnd) hdisj
      · intro x hx
        rcases List.mem_append.1 hx with hm | hm
        · exact hpsub x hm
        · rw [← hK] at hm
          exact (mem_kahnNew hm).1
      · have : (p ++ n :: ns).length = p.length + (n :: ns).length :=
          List.length_append _ _
        simp only [List.length_cons] at this
        omega

/-- Membership in the unprocessed set. -/
theorem mem_kahnUnprocessed {deps : GraphT} {x : String} :
    x ∈ kahnUnprocessed deps ↔
      x ∈ allNodes deps ∧ ¬ x ∈ kahnProcessed deps := by
  unfold kahnUnprocessed
  rw [List.mem_filter]
  simp

/-- Kahn postcondition used by DFS completeness: every unprocessed node
has an in-graph unprocessed dependency. -/
theorem kahnU_postcondition (deps : GraphT) (hnd : (allNodes deps).Nodup) :
    ∀ u ∈ kahnUnprocessed deps, ∃ d, d ∈ depsOf deps u ∧
      d ∈ allNodes deps ∧ d ∈ kahnUnprocessed deps := by
  intro u hu
  have hfix : kahnNew deps (kahnProcessed deps) = [] := by
    unfold kahnProcessed
    refine kahnLoop_fixpoint deps hnd _ [] List.nodup_nil ?_ ?_
    · intro x hx
      exact absurd hx (List.not_mem_nil x)
    · simp
  obtain ⟨hua, hup⟩ := mem_kahnUnprocessed.1 hu
  have hnotnew : ¬ u ∈ kahnNew deps (kahnProcessed deps) := by
    rw [hfix]
    exact List.not_mem_nil u
  unfold kahnNew at hnotnew
  rw [List.mem_filter] at hnotnew
  have h2 : ¬ ((decide (¬ u ∈ kahnProcessed deps) &&
      (depsOf deps u).all (fun d => if d ∈ allNodes deps
        then decide (d ∈ kahnProcessed deps) else true)) = true) :=
    fun hh => hnotnew ⟨hua, hh⟩
  simp only [Bool.and_eq_true, decide_eq_true_eq, List.all_eq_true] at h2
  rcases Classical.not_and_iff_or_not_not.1 h2 with h3 | h3
  · exact absurd hup h3
  · rcases Classical.not_forall.1 h3 with ⟨d, hd⟩
    rcases Classical.not_imp.1 hd with ⟨hd1, hd2⟩
    by_cases hda : d ∈ allNodes deps
    · rw [if_pos hda] at hd2
      have hd3 : ¬ d ∈ kahnProcessed deps := by
        intro hm
        exact hd2 (by simpa using hm)
      exact ⟨d, hd1, hda, mem_kahnUnprocessed.2 ⟨hda, hd3⟩⟩
    · rw [if_neg hda] at hd2
      exact absurd rfl hd2

/-- Closure postcondition used by DFS completeness: a processed node's
in-graph dependencies never lead back into the unprocessed set. -/
theorem kahnU_closed (deps : GraphT) :
    ∀ x ∈ allNodes deps, ¬ x ∈ kahnUnprocessed deps →
      ∀ d ∈ depsOf deps x, d ∈ allNodes deps →
        ¬ d ∈ kahnUnprocessed deps := by
  intro x hxa hxu d hd hda
  have hxp : x ∈ kahnProcessed deps := by
    by_cases hp : x ∈ kahnProcessed deps
    · exact hp
    · exact absurd (mem_kahnUnprocessed.2 ⟨hxa, hp⟩) hxu
  have hclosed := kahnLoop_closed deps ((allNodes deps).length + 1) []
    (fun y hy => absurd hy (List.not_mem_nil y))
  have hdp : d ∈ kahnProcessed deps := hclosed x hxp d hd hda
  intro hm
  exact (mem_kahnUnprocessed.1 hm).2 hdp

/-- Claim C7.  For every dependency graph containing a static cycle,
the construction-time analysis with `allow_partial = false` fails with
`CircularWiringError`, and the error message reports the full path of a
genuine dependency cycle found by the DFS over the unprocessed nodes of
the topological sort (every member of that cycle appears in the
reported ` -> `-joined path), alongside the unprocessed set. -/
theorem c7_static_cycle_reported
    (deps : GraphT) (hnd : (allNodes deps).Nodup)
    (c0 : List String) (hc0 : isCycle deps c0)
    (hc0mem : ∀ x ∈ c0, x ∈ allNodes deps) :
    ∃ cyc, isCycle deps cyc ∧
      analyzeCycles deps false = Except.error
        ("Circular dependency detected: " ++ joinComma (kahnUnprocessed deps)
          ++ "; cycle: " ++ joinArrow cyc) := by
  have hfree := kahnLoop_cycle_free deps c0 hc0 hc0mem
    ((allNodes deps).length + 1) [] (fun x _ => List.not_mem_nil x)
  have hsubU : ∀ x ∈ c0, x ∈ kahnUnprocessed deps := by
    intro x hx
    exact mem_kahnUnprocessed.2 ⟨hc0mem x hx, hfree x hx⟩
  have hc0ne : ∃ a, a ∈ c0 := by
    rcases c0 with _ | ⟨a, rest⟩
    · exact absurd hc0.1 (by simp)
    · exact ⟨a, List.mem_cons_self _ _⟩
  obtain ⟨a, ha⟩ := hc0ne
  have haU : a ∈ kahnUnprocessed deps := hsubU a ha
  rcases hU : kahnUnprocessed deps with _ | ⟨u, us⟩
  · rw [hU] at haU
    exact absurd haU (List.not_mem_nil a)
  · have hU1 := kahnU_postcondition deps hnd
    have hU3 := kahnU_closed deps
    have hunv : unvisU (kahnUnprocessed deps) ⟨[], [], []⟩
        = (kahnUnprocessed deps).length := by
      unfold unvisU
      rw [List.filter_eq_self.2 (fun x _ => by simp)]
    have husU : u ∈ kahnUnprocessed deps := by
      rw [hU]
      exact List.mem_cons_self _ _
    obtain ⟨c, st2, hc⟩ := dfsC deps (kahnUnprocessed deps) hU1 hU3
      ((u :: us).length + 1) u ⟨[], [], []⟩
      (fun w _ hw => absurd hw (List.not_mem_nil w))
      (fun x hx => absurd hx (List.not_mem_nil x))
      husU (List.not_mem_nil u)
      (by rw [hunv, hU])
    have hfc : findCycle deps ((u :: us).length + 1) (u :: us) ⟨[], [], []⟩
        = (some c, st2) := by
      simp only [findCycle]
      rw [if_neg (List.not_mem_nil u), hc]
    have hcyc := findCycleS deps ((u :: us).length + 1) (u :: us)
      ⟨[], [], []⟩ c st2 rfl
      (fun x hx => absurd hx (List.not_mem_nil x))
      (fun x hx => absurd hx (List.not_mem_nil x)) hfc
    have hmsg : from_unprocessed deps (u :: us) ((u :: us).length + 1)
        = "Circular dependency detected: " ++ joinComma (u :: us)
          ++ "; cycle: " ++ joinArrow c := by
      unfold from_unprocessed
      rw [hfc]
    have hred : analyzeCycles deps false = Except.error
        (from_unprocessed deps (u :: us) ((u :: us).length + 1)) := by
      unfold analyzeCycles
      rw [if_neg Bool.false_ne_true, hU]
    exact ⟨c, hcyc, by rw [hred, hmsg]⟩

/-- Witness for C7 at the two-node cycle spec (testable property S5,
`a → b → a`): the analysis fails and the message carries a genuine
cycle path. -/
theorem c7_static_cycle_reported_witness :
    ((allNodes [("a", ["b"]), ("b", ["a"])]).Nodup
      ∧ isCycle [("a", ["b"]), ("b", ["a"])] ["a", "b", "a"]
      ∧ ∀ x ∈ (["a", "b", "a"] : List String),
          x ∈ allNodes [("a", ["b"]), ("b", ["a"])])
    ∧ ∃ cyc, isCycle [("a", ["b"]), ("b", ["a"])] cyc ∧
        analyzeCycles [("a", ["b"]), ("b", ["a"])] false = Except.error
          ("Circular dependency detected: "
            ++ joinComma (kahnUnprocessed [("a", ["b"]), ("b", ["a"])])
            ++ "; cycle: " ++ joinArrow cyc) :=
  ⟨⟨by decide, by unfold isCycle; decide, by decide⟩,
   c7_static_cycle_reported [("a", ["b"]), ("b", ["a"])] (by decide)
     ["a", "b", "a"] (by unfold isCycle; decide) (by decide)⟩

end Apywire
